import Mathlib

/-!
Verification of the record-map sanitization routine (`sanitizeRecordMap`)
of the nline-blog repository, together with its reference-resolution pass,
type inference, identifier backfill, dual-keying, and collection
normalization.

The embedding models JavaScript objects as insertion-ordered association
lists (`List (String × _)`) with JavaScript `obj[k] = v` update semantics
(in-place update when the key exists, append otherwise), which matches the
behaviour of `Object.entries`, `Map.get`/`Map.set`, and property assignment
on the string-keyed objects the source manipulates.  Block and collection
values are modelled structurally with the fields the routine reads
(`id`, `type`, `properties`, `content`, `parent_table`, `role`, and the
nested `value` field used to detect the doubly-wrapped shape); `Option`
models field absence, with JavaScript string falsiness (`undefined` or
`''`) modelled explicitly.
-/

namespace NlineBlog

/-- An element of a block's `content` array.  The source only acts on
string elements (`typeof childId === 'string'`); any non-string element is
modelled abstractly by `nonstr`. -/
inductive ContentItem where
  | str (s : String)
  | nonstr (tag : Nat)
deriving DecidableEq, Repr

/-- The fields of a block (or collection) value object read by the
routine, apart from the nested `value` field.  Fields the routine never
reads are not modelled. -/
structure BCore where
  id : Option String
  type : Option String
  properties : Option Nat
  content : Option (List ContentItem)
  parent_table : Option String
  role : Option String
deriving DecidableEq

/-- A block (or collection) value object: its own fields plus the chain of
nested `value` objects (`blockRecord.value.value` and deeper).  A value
with `nested = []` has no `value` property; `nested = c :: rest` models a
`value` property holding the object `⟨c, rest⟩`.  This is the nested
inductive of wrapper objects, unrolled into a list so that equality is
structurally decidable. -/
structure BValue where
  core : BCore
  nested : List BCore
deriving DecidableEq

/-- The nested `value` property of a value object. -/
def BValue.value? (v : BValue) : Option BValue :=
  match v.nested with
  | [] => none
  | c :: rest => some ⟨c, rest⟩

def BValue.id? (v : BValue) : Option String := v.core.id

def BValue.type? (v : BValue) : Option String := v.core.type

def BValue.properties? (v : BValue) : Option Nat := v.core.properties

def BValue.content? (v : BValue) : Option (List ContentItem) := v.core.content

def BValue.parentTable? (v : BValue) : Option String := v.core.parent_table

def BValue.role? (v : BValue) : Option String := v.core.role

def BValue.withId (v : BValue) (i : Option String) : BValue :=
  { v with core := { v.core with id := i } }

def BValue.withType (v : BValue) (t : Option String) : BValue :=
  { v with core := { v.core with type := t } }

/-- A record of the `block` (or `collection`) table: a `role` marker and an
optional `value` object (`!blockRecord?.value` is the skip condition in the
source). -/
structure BRecord where
  role : Option String
  value : Option BValue
deriving DecidableEq

/-- The record map.  `block` is `none` when the map has no (truthy) `block`
table, in which case the source returns its input unchanged; `collection`
is `none` when absent.  `space` stands for the opaque fields that are
spread through unchanged. -/
structure RecordMap where
  block : Option (List (String × BRecord))
  collection : Option (List (String × BRecord))
  space : Nat
deriving DecidableEq

/-! ### JavaScript object primitives -/

/-- Property read on a string-keyed object. -/
def objGet {α : Type _} (k : String) : List (String × α) → Option α
  | [] => none
  | (k', v) :: rest => if k' = k then some v else objGet k rest

/-- Property write on a string-keyed object: update in place when the key
exists (keeping insertion order), append otherwise.  This is the semantics
of both `obj[k] = v` and `Map.set`. -/
def objSet {α : Type _} (k : String) (v : α) : List (String × α) → List (String × α)
  | [] => [(k, v)]
  | (k', v') :: rest => if k' = k then (k, v) :: rest else (k', v') :: objSet k v rest

def objKeys {α : Type _} (m : List (String × α)) : List String :=
  m.map Prod.fst

/-- Insertion-ordered set `add`. -/
def setAdd (s : String) (l : List String) : List String :=
  if s ∈ l then l else l ++ [s]

/-! ### Key normalizer

`parsePageId(key, { uuid: false })` from the external `notion-utils`
library.  Modelled from the spec's Key Normalizer contract (§4.1): the
dashed `8-4-4-4-12` lowercase-hex form is stripped of its separators, the
undashed 32-hex form passes through, and anything else yields no parse
(the callers all use `parsePageId(k, { uuid: false }) || k`, modelled by
`normalizeKey`). -/

def isHexLower (c : Char) : Bool :=
  c.isDigit || ('a' ≤ c && c ≤ 'f')

def isHexCI (c : Char) : Bool :=
  isHexLower c || ('A' ≤ c && c ≤ 'F')

/-- Undashed canonical form: 32 contiguous lowercase hex characters. -/
def isUndashedId (s : String) : Bool :=
  s.toList.length == 32 && s.toList.all isHexLower

/-- Dashed UUID form: hex groups of 8, 4, 4, 4, 12 separated by dashes. -/
def isDashedId (s : String) : Bool :=
  let cs := s.toList
  cs.length == 36 &&
  (cs.take 8).all isHexLower && ((cs.drop 8).take 1 == ['-']) &&
  ((cs.drop 9).take 4).all isHexLower && ((cs.drop 13).take 1 == ['-']) &&
  ((cs.drop 14).take 4).all isHexLower && ((cs.drop 18).take 1 == ['-']) &&
  ((cs.drop 19).take 4).all isHexLower && ((cs.drop 23).take 1 == ['-']) &&
  (cs.drop 24).all isHexLower

def stripDashes (s : String) : String :=
  String.mk (s.toList.filter (fun c => c ≠ '-'))

/-- Re-insert dashes in the 8-4-4-4-12 grouping (the template literal on
the 32-character hex string in the reference resolver). -/
def insertDashes (s : String) : String :=
  let cs := s.toList
  String.mk (cs.take 8 ++ '-' :: (cs.drop 8).take 4 ++ '-' :: (cs.drop 12).take 4
    ++ '-' :: (cs.drop 16).take 4 ++ '-' :: cs.drop 20)

/-- Modelled from the spec: the Key Normalizer (§4.1), i.e. the external
`notion-utils` function `parsePageId` with `{ uuid: false }`, whose code is
not part of this repository.  It produces the undashed canonical form of a
well-formed identifier and `none` (JS `null`) otherwise. -/
def parsePageId (s : String) : Option String :=
  if isUndashedId s then some s
  else if isDashedId s then some (stripDashes s)
  else none

/-- The composite `parsePageId(k, ...) || k` used at every call site. -/
def normalizeKey (s : String) : String :=
  (parsePageId s).getD s

/-! ### Pass 1: reference resolution -/

/-- The key set of the `block` table (`allBlockKeysSet`). -/
def allBlockKeys (es : List (String × BRecord)) : List String :=
  es.map Prod.fst

/-- The `normalizedBlockKeys` map: for each storage key, `normalized -> key`
then `key -> key`, later insertions overwriting earlier ones. -/
def normalizedBlockKeys (es : List (String × BRecord)) : List (String × String) :=
  (allBlockKeys es).foldl
    (fun m key => objSet key key (objSet (normalizeKey key) key m)) []

/-- The `content` array scanned by pass 1 for a record, probing the nested
value first (`(blockRecord?.value as any)?.value || blockRecord?.value`). -/
def contentOf (rec : BRecord) : List ContentItem :=
  match rec.value with
  | none => []
  | some v =>
    match ((v.value?).getD v).content? with
    | some items => items
    | none => []

/-- The three-step child-identifier resolution of pass 1:
exact key match, then normalized lookup, then re-dashing a 32-hex string.
JavaScript string falsiness makes the empty string behave like a miss, so
the running `actualKey` is a `String` with `""` for "not found". -/
def resolveChild (keys : List String) (nmap : List (String × String))
    (childId : String) : Option String :=
  let actualKey : String :=
    if keys.contains childId then childId
    else
      let normalizedChildId := normalizeKey childId
      let fromMap := (objGet normalizedChildId nmap).getD ""
      if fromMap ≠ "" then fromMap
      else if normalizedChildId.toList.length == 32
          && normalizedChildId.toList.all isHexCI then
        let dashedId := insertDashes normalizedChildId
        if keys.contains dashedId then dashedId else ""
      else ""
  if actualKey ≠ "" then some actualKey else none

/-- How pass 1 treats one element of a `content` array: non-strings are
skipped by the `typeof childId === 'string'` guard; strings either resolve
to an actual storage key or are recorded as missing. -/
inductive ChildClass where
  | resolved (key : String)
  | missing
  | skipped
deriving DecidableEq, Repr

def classifyChild (keys : List String) (nmap : List (String × String)) :
    ContentItem → ChildClass
  | .nonstr _ => .skipped
  | .str s =>
    match resolveChild keys nmap s with
    | some k => .resolved k
    | none => .missing

/-- Accumulate one content element into `(referencedBlockIds, missingBlockIds)`. -/
def collectItem (keys : List String) (nmap : List (String × String))
    (acc : List String × List String) (it : ContentItem) :
    List String × List String :=
  match classifyChild keys nmap it with
  | .resolved k => (setAdd k acc.1, acc.2)
  | .missing =>
    match it with
    | .str s => (acc.1, setAdd s acc.2)
    | .nonstr _ => acc
  | .skipped => acc

def collectRefs (es : List (String × BRecord)) : List String × List String :=
  es.foldl
    (fun acc kv =>
      (contentOf kv.2).foldl (collectItem (allBlockKeys es) (normalizedBlockKeys es)) acc)
    ([], [])

def referencedBlockIds (es : List (String × BRecord)) : List String :=
  (collectRefs es).1

def missingBlockIds (es : List (String × BRecord)) : List String :=
  (collectRefs es).2

/-- The diagnostics emitted by the call: one `console.warn` carrying the
size of `missingBlockIds` when it is non-empty, and nothing otherwise. -/
def sanitizeWarnings (r : RecordMap) : List Nat :=
  match r.block with
  | none => []
  | some es =>
    let m := missingBlockIds es
    if m.length > 0 then [m.length] else []

/-! ### Pass 2: flattening, id backfill, type inference, dual-keying -/

/-- JavaScript string falsiness: absent (`undefined`) or `''`. -/
def strFalsy : Option String → Bool
  | none => true
  | some s => s == ""

def mergeField {α : Type _} (inner wrapper : Option α) : Option α :=
  match inner with
  | some x => some x
  | none => wrapper

/-- The wrapper flattening: `{ ...wrapperProps, ...actualBlock }` with the
wrapper's `value` field deleted first, inner fields winning on collision,
and the result's `value` property being the inner object's own `value`
property. -/
def flattenValue (v : BValue) : BValue :=
  match v.nested with
  | [] => v
  | c :: rest =>
    { core :=
        { id := mergeField c.id v.core.id
          type := mergeField c.type v.core.type
          properties := mergeField c.properties v.core.properties
          content := mergeField c.content v.core.content
          parent_table := mergeField c.parent_table v.core.parent_table
          role := mergeField c.role v.core.role }
      nested := rest }

/-- Lines 127-132: `const blockId = key || blockValue?.id` followed by the
guarded assignment `blockValue.id = blockId`. -/
def backfillId (key : String) (v : BValue) : BValue :=
  let blockId := if key ≠ "" then key else (v.id?).getD ""
  if blockId ≠ "" && strFalsy v.id? then v.withId (some blockId) else v

/-- The type-inference cascade of lines 137-152. -/
def inferBlockType (v : BValue) : String :=
  if (v.properties?).isSome then "text"
  else if (v.content?).isSome then "column_list"
  else if v.parentTable? == some "collection" then "page"
  else "text"

def setTypeIfMissing (v : BValue) : BValue :=
  if strFalsy v.type? then v.withType (some (inferBlockType v)) else v

/-- The in-place transformation of one block value: flatten, backfill the
id from the key, infer a missing type. -/
def processValue (key : String) (v0 : BValue) : BValue :=
  setTypeIfMissing (backfillId key (flattenValue v0))

def processRecord (key : String) (rec : BRecord) : BRecord :=
  match rec.value with
  | none => rec
  | some v0 => { rec with value := some (processValue key v0) }

/-- Lines 168-174: the second, redundant id assignment performed inside the
storage guard (`finalId = key`). -/
def finalIdFix (key : String) (rec : BRecord) : BRecord :=
  match rec.value with
  | none => rec
  | some v => if strFalsy v.id? then { rec with value := some (v.withId (some key)) } else rec

/-- The record as stored (and as left in the input, which is mutated in
place) for a record whose key passes the storage guard. -/
def storedRecord (key : String) (rec : BRecord) : BRecord :=
  finalIdFix key (processRecord key rec)

/-- One iteration of the block-sanitizing loop (lines 101-186): skip
value-less records, process in place, then store under the original key
and additionally under the normalized key when it differs and is
non-empty. -/
def sanitizeBlockStep (out : List (String × BRecord)) (kv : String × BRecord) :
    List (String × BRecord) :=
  match kv.2.value with
  | none => out
  | some _ =>
    if kv.1 ≠ "" then
      let r2 := storedRecord kv.1 kv.2
      let out1 := objSet kv.1 r2 out
      let nk := normalizeKey kv.1
      if nk ≠ kv.1 && nk ≠ "" then objSet nk r2 out1 else out1
    else out

def sanitizeBlocks (es : List (String × BRecord)) : List (String × BRecord) :=
  es.foldl sanitizeBlockStep []

/-- One iteration of the collection-sanitizing loop (lines 191-212):
skip value-less records, flatten the nested shape, store under the
original key. -/
def sanitizeCollectionStep (out : List (String × BRecord)) (kv : String × BRecord) :
    List (String × BRecord) :=
  match kv.2.value with
  | none => out
  | some v0 => objSet kv.1 { kv.2 with value := some (flattenValue v0) } out

def sanitizeCollections (es : List (String × BRecord)) : List (String × BRecord) :=
  es.foldl sanitizeCollectionStep []

/-- The sanitizer itself.  A falsy `block` table returns the input
unchanged; otherwise new `block` and `collection` tables are built (the
`collection` table is rebuilt even when absent in the input, as `{}`
spread into `some`), with all other fields spread through. -/
def sanitizeRecordMap (r : RecordMap) : RecordMap :=
  match r.block with
  | none => r
  | some es =>
    { r with
      block := some (sanitizeBlocks es)
      collection := some (sanitizeCollections ((r.collection).getD [])) }

/-- The observable effect of the call on its *input*: the record objects
held by the input tables are mutated in place (flattening, id backfill,
type inference run on `blockRecord.value` itself), while the containers
keep their keys.  This is the state of the input after `sanitizeRecordMap`
returns. -/
def inPlaceRecord (key : String) (rec : BRecord) : BRecord :=
  match rec.value with
  | none => rec
  | some _ =>
    let r1 := processRecord key rec
    if key ≠ "" then finalIdFix key r1 else r1

def inPlaceCollectionRecord (rec : BRecord) : BRecord :=
  match rec.value with
  | none => rec
  | some v0 => { rec with value := some (flattenValue v0) }

def inputAfterSanitize (r : RecordMap) : RecordMap :=
  match r.block with
  | none => r
  | some es =>
    { r with
      block := some (es.map fun kv => (kv.1, inPlaceRecord kv.1 kv.2))
      collection := (r.collection).map fun cs =>
        cs.map fun kv => (kv.1, inPlaceCollectionRecord kv.2) }


/-- The number of failing child references counted with multiplicity.
This formalizes the claim's "N child references fail to resolve"; the
source itself has no such counter (it aggregates distinct identifiers into
the `missingBlockIds` set). -/
def missingRefOccurrences (r : RecordMap) : Nat :=
  match r.block with
  | none => 0
  | some es =>
    es.foldl (fun n kv =>
      (contentOf kv.2).foldl (fun n it =>
        match it with
        | .str s =>
          if (resolveChild (allBlockKeys es) (normalizedBlockKeys es) s).isNone
          then n + 1 else n
        | .nonstr _ => n) n) 0

/-! ### Concrete fixtures used by witnesses and counterexamples -/

/-- An all-absent field core. -/
def cCore0 : BCore := ⟨none, none, none, none, none, none⟩

/-- A record with a present, flat, field-less value. -/
def cRec0 : BRecord := ⟨none, some ⟨cCore0, []⟩⟩

/-- A dashed storage key. -/
def cDKey : String := "abcdefab-cdef-abcd-efab-cdefabcdef12"

/-- The undashed canonical form of `cDKey`. -/
def cUKey : String := "abcdefabcdefabcdefabcdefabcdef12"

def c3Map : RecordMap := ⟨some [("a", cRec0)], none, 0⟩

def c4Wrapped : BValue :=
  ⟨{ cCore0 with role := some "reader" },
    [{ cCore0 with id := some "x", type := some "page" }]⟩

def c4Inner : BValue := ⟨{ cCore0 with id := some "x", type := some "page" }, []⟩

def c4Flat : BValue := ⟨cCore0, []⟩

def c4Map : RecordMap := ⟨some [("x", ⟨none, some c4Wrapped⟩)], none, 0⟩

/-- The flattened value the spec's example expects. -/
def c4Expected : BValue :=
  ⟨{ cCore0 with role := some "reader", id := some "x", type := some "page" }, []⟩

def c5Rec : BRecord := ⟨none, some ⟨{ cCore0 with content := some [.nonstr 0] }, []⟩⟩

def c5Es : List (String × BRecord) := [("p", c5Rec)]

def c6Es : List (String × BRecord) := [(cDKey, cRec0)]

def c7Rec : BRecord := ⟨none, some ⟨{ cCore0 with content := some [.str "zzz"] }, []⟩⟩

def c7Es : List (String × BRecord) := [("p1", c7Rec), ("p2", c7Rec)]

def c7Map : RecordMap := ⟨some c7Es, none, 0⟩

def c1RecU : BRecord := ⟨none, some ⟨{ cCore0 with id := some "u" }, []⟩⟩

def c1RecD : BRecord := ⟨none, some ⟨{ cCore0 with id := some "d" }, []⟩⟩

def c1Es : List (String × BRecord) := [(cUKey, c1RecU), (cDKey, c1RecD)]

def c1Map : RecordMap := ⟨some c1Es, none, 0⟩

def c1MapW : RecordMap := ⟨some [(cDKey, cRec0)], none, 0⟩

def c10Map : RecordMap := ⟨some c1Es, none, 0⟩

/-- The record's value is at most singly wrapped (no `value` field nested
inside the inner object); this is the shape the spec's data model admits. -/
def recAtMostSingle (rec : BRecord) : Bool :=
  match rec.value with
  | none => true
  | some v => v.nested.tail.isEmpty

def c2DoubleMap : RecordMap :=
  ⟨some [("k1", ⟨none, some ⟨cCore0, [cCore0, cCore0]⟩⟩)], none, 0⟩

def c2Map : RecordMap :=
  ⟨some [(cDKey, cRec0), (cUKey, ⟨none, some ⟨{ cCore0 with id := some "z" }, []⟩⟩)],
    some [("col", ⟨none, some ⟨{ cCore0 with role := some "reader" },
      [{ cCore0 with id := some "c1" }]⟩⟩)], 0⟩

/-- A block record whose value needs no in-place repair: flat, non-falsy
id and type. -/
def recSanitized (rec : BRecord) : Bool :=
  match rec.value with
  | none => true
  | some v => v.nested.isEmpty && !(strFalsy v.id?) && !(strFalsy v.type?)

/-- A record whose value carries no nested wrapper. -/
def recFlat (rec : BRecord) : Bool :=
  match rec.value with
  | none => true
  | some v => v.nested.isEmpty

def c8Map : RecordMap := ⟨some [("a", cRec0)], none, 0⟩

def c8SafeMap : RecordMap :=
  ⟨some [("a", ⟨none, some ⟨{ cCore0 with id := some "a", type := some "text" }, []⟩⟩)],
    some [("col", ⟨none, some ⟨{ cCore0 with id := some "c" }, []⟩⟩)], 0⟩

def c9Wrapped : BValue :=
  ⟨{ cCore0 with role := some "reader" }, [{ cCore0 with id := some "y" }]⟩

def c9Map : RecordMap :=
  ⟨some [], some [("c1", ⟨none, none⟩), ("c2", ⟨some "r", some c9Wrapped⟩)], 0⟩

/-- An entry whose record the sanitizer leaves unchanged: non-empty key,
present value, no nested wrapper, non-falsy id and type. -/
def StableEntry (kv : String × BRecord) : Prop :=
  kv.1 ≠ "" ∧ ∃ v, kv.2.value = some v ∧ v.nested = [] ∧
    strFalsy v.id? = false ∧ strFalsy v.type? = false

/-- The positional discipline of a sanitized block table: every entry under
a dashed key has its canonical twin either somewhere earlier with the very
same record (the canonical key's own entry was overwritten by this entry's
dual write), or immediately after it (the dual write appended the twin);
in the first case the canonical key was an input key (tracked by `seen`). -/
def DualsOK (seen : List String) (M : List (String × BRecord)) : Prop :=
  ∀ A d rec B, M = A ++ (d, rec) :: B → normalizeKey d ≠ d →
    (((normalizeKey d, rec) ∈ A) ∧ normalizeKey d ∈ seen) ∨
      ∃ rx B', B = (normalizeKey d, rx) :: B'

/-- The full invariant maintained over the output table while the block
loop runs; `seen` is the set of input keys already iterated. -/
def BlocksInv (seen : List String) (M : List (String × BRecord)) : Prop :=
  (objKeys M).Nodup ∧ (∀ kv ∈ M, StableEntry kv) ∧ DualsOK seen M ∧
  (∀ x ∈ objKeys M, x ∈ seen ∨ ∃ k ∈ seen, normalizeKey k = x)

/-! ### Lemmas about the object primitives -/

theorem objGet_objSet_self {α : Type _} (k : String) (v : α) (m : List (String × α)) :
    objGet k (objSet k v m) = some v := by
  induction m with
  | nil => simp [objGet, objSet]
  | cons kv rest ih =>
    obtain ⟨k', v'⟩ := kv
    by_cases h : k' = k
    · simp [objGet, objSet, h]
    · simp [objGet, objSet, h, ih]

theorem objGet_objSet_ne {α : Type _} {k k' : String} (h : k' ≠ k) (v : α)
    (m : List (String × α)) : objGet k (objSet k' v m) = objGet k m := by
  induction m with
  | nil => simp [objGet, objSet, h]
  | cons kv rest ih =>
    obtain ⟨k'', v''⟩ := kv
    by_cases h2 : k'' = k'
    · subst h2
      simp [objGet, objSet, h]
    · by_cases h3 : k'' = k
      · simp [objGet, objSet, h2, h3, Ne.symm h]
      · simp [objGet, objSet, h2, h3, ih]

theorem objSet_not_mem {α : Type _} {k : String} {m : List (String × α)}
    (hm : k ∉ objKeys m) (v : α) : objSet k v m = m ++ [(k, v)] := by
  induction m with
  | nil => simp [objSet]
  | cons kv rest ih =>
    obtain ⟨k', v'⟩ := kv
    simp only [objKeys, List.map_cons, List.mem_cons] at hm
    push_neg at hm
    simp only [objSet, if_neg (Ne.symm hm.1), List.cons_append, List.cons.injEq, true_and]
    exact ih hm.2

theorem objKeys_objSet_of_mem {α : Type _} {k : String} {m : List (String × α)}
    (hm : k ∈ objKeys m) (v : α) : objKeys (objSet k v m) = objKeys m := by
  induction m with
  | nil => simp [objKeys] at hm
  | cons kv rest ih =>
    obtain ⟨k', v'⟩ := kv
    by_cases h : k' = k
    · simp [objSet, objKeys, h]
    · simp only [objKeys, List.map_cons, List.mem_cons] at hm
      rcases hm with hm | hm
      · exact absurd hm.symm h
      · simp only [objSet, if_neg h, objKeys, List.map_cons, List.cons.injEq, true_and]
        exact ih hm

theorem objSet_append_of_mem {α : Type _} {k : String} {m : List (String × α)}
    (hm : k ∈ objKeys m) (v : α) (L : List (String × α)) :
    objSet k v (m ++ L) = objSet k v m ++ L := by
  induction m with
  | nil => simp [objKeys] at hm
  | cons kv rest ih =>
    obtain ⟨k', v'⟩ := kv
    by_cases h : k' = k
    · simp [objSet, h]
    · simp only [objKeys, List.map_cons, List.mem_cons] at hm
      rcases hm with hm | hm
      · exact absurd hm.symm h
      · simp only [List.cons_append, objSet, if_neg h, List.cons.injEq, true_and]
        exact ih hm

theorem objSet_of_mem_nodup {α : Type _} {k : String} {v : α} {m : List (String × α)}
    (hm : (k, v) ∈ m) (hn : (objKeys m).Nodup) : objSet k v m = m := by
  induction m with
  | nil => simp at hm
  | cons kv rest ih =>
    obtain ⟨k', v'⟩ := kv
    simp only [objKeys, List.map_cons, List.nodup_cons] at hn
    rcases List.mem_cons.mp hm with hm | hm
    · rw [hm.symm]
      simp [objSet]
    · have hk : k' ≠ k := by
        intro h
        exact hn.1 (h ▸ List.mem_map.mpr ⟨(k, v), hm, rfl⟩)
      simp only [objSet, if_neg hk, List.cons.injEq, true_and]
      exact ih hm hn.2

theorem mem_of_mem_objSet {α : Type _} {kv : String × α} {k : String} {v : α}
    {m : List (String × α)} (h : kv ∈ objSet k v m) : kv = (k, v) ∨ kv ∈ m := by
  induction m with
  | nil => simp [objSet] at h; exact Or.inl h
  | cons kv' rest ih =>
    obtain ⟨k', v'⟩ := kv'
    by_cases h2 : k' = k
    · simp only [objSet, if_pos h2, List.mem_cons] at h
      rcases h with h | h
      · exact Or.inl h
      · exact Or.inr (List.mem_cons_of_mem _ h)
    · simp only [objSet, if_neg h2, List.mem_cons] at h
      rcases h with h | h
      · exact Or.inr (List.mem_cons.mpr (Or.inl h))
      · rcases ih h with h | h
        · exact Or.inl h
        · exact Or.inr (List.mem_cons_of_mem _ h)

theorem objKeys_objSet_sub {α : Type _} (k : String) (v : α) (m : List (String × α)) :
    objKeys (objSet k v m) ⊆ k :: objKeys m := by
  by_cases hm : k ∈ objKeys m
  · rw [objKeys_objSet_of_mem hm]
    exact List.subset_cons_self _ _
  · rw [objSet_not_mem hm]
    intro x hx
    simp only [objKeys, List.map_append, List.mem_append, List.map_cons] at hx
    rcases hx with hx | hx
    · exact List.mem_cons_of_mem _ hx
    · simp at hx
      simp [hx]

theorem nodup_objKeys_objSet {α : Type _} {m : List (String × α)} (k : String) (v : α)
    (h : (objKeys m).Nodup) : (objKeys (objSet k v m)).Nodup := by
  by_cases hm : k ∈ objKeys m
  · rw [objKeys_objSet_of_mem hm]
    exact h
  · rw [objSet_not_mem hm]
    simp only [objKeys, List.map_append, List.map_cons, List.map_nil]
    rw [List.nodup_append]
    refine ⟨h, List.nodup_singleton k, ?_⟩
    intro x hx
    simp only [List.mem_singleton]
    intro hxk
    exact hm (hxk ▸ hx)

theorem mem_of_objGet_eq_some {α : Type _} {k : String} {v : α} {m : List (String × α)}
    (h : objGet k m = some v) : (k, v) ∈ m := by
  induction m with
  | nil => simp [objGet] at h
  | cons kv rest ih =>
    obtain ⟨k', v'⟩ := kv
    by_cases h2 : k' = k
    · subst h2
      rw [objGet, if_pos rfl] at h
      injection h with h
      rw [← h]
      exact List.mem_cons_self _ _
    · simp only [objGet, if_neg h2] at h
      exact List.mem_cons_of_mem _ (ih h)

theorem objGet_eq_none_iff {α : Type _} {k : String} {m : List (String × α)} :
    objGet k m = none ↔ k ∉ objKeys m := by
  induction m with
  | nil => simp [objGet, objKeys]
  | cons kv rest ih =>
    obtain ⟨k', v'⟩ := kv
    by_cases h2 : k' = k
    · subst h2
      simp [objGet, objKeys]
    · simp [objGet, objKeys, h2, ih, Ne.symm h2]

theorem objGet_isSome_of_mem {α : Type _} {k : String} {m : List (String × α)}
    (h : k ∈ objKeys m) : ∃ v, objGet k m = some v := by
  cases hg : objGet k m with
  | none => exact absurd h (objGet_eq_none_iff.mp hg)
  | some v => exact ⟨v, rfl⟩

theorem objSet_split {α : Type _} {k : String} {w : α} {A B : List (String × α)}
    (hA : k ∉ objKeys A) (v : α) :
    objSet k v (A ++ (k, w) :: B) = A ++ (k, v) :: B := by
  induction A with
  | nil => simp [objSet]
  | cons kv rest ih =>
    obtain ⟨k', v'⟩ := kv
    simp only [objKeys, List.map_cons, List.mem_cons] at hA
    push_neg at hA
    simp only [List.cons_append, objSet, if_neg (Ne.symm hA.1), List.cons.injEq, true_and]
    exact ih hA.2

theorem mem_objSet_self {α : Type _} (k : String) (m : List (String × α)) (v : α) :
    (k, v) ∈ objSet k v m :=
  mem_of_objGet_eq_some (objGet_objSet_self k v m)

theorem objKeys_mono_objSet {α : Type _} {x : String} {m : List (String × α)}
    (h : x ∈ objKeys m) (k : String) (v : α) : x ∈ objKeys (objSet k v m) := by
  by_cases hk : k ∈ objKeys m
  · rwa [objKeys_objSet_of_mem hk]
  · rw [objSet_not_mem hk]
    simp only [objKeys, List.map_append, List.mem_append]
    exact Or.inl h

/-! ### Lemmas about the key normalizer -/

theorem hexLower_ne_dash {c : Char} (h : isHexLower c = true) : c ≠ '-' := by
  intro hc
  subst hc
  exact absurd h (by decide)

/-- Decomposition of a dashed identifier into its five hex groups. -/
theorem isDashedId_parts {s : String} (h : isDashedId s = true) :
    ∃ g1 g2 g3 g4 g5 : List Char,
      s.toList = g1 ++ '-' :: g2 ++ '-' :: g3 ++ '-' :: g4 ++ '-' :: g5 ∧
      g1.length = 8 ∧ g2.length = 4 ∧ g3.length = 4 ∧ g4.length = 4 ∧ g5.length = 12 ∧
      g1.all isHexLower = true ∧ g2.all isHexLower = true ∧ g3.all isHexLower = true ∧
      g4.all isHexLower = true ∧ g5.all isHexLower = true := by
  simp only [isDashedId, Bool.and_eq_true, beq_iff_eq] at h
  obtain ⟨⟨⟨⟨⟨⟨⟨⟨⟨hlen, h1⟩, d1⟩, h2⟩, d2⟩, h3⟩, d3⟩, h4⟩, d4⟩, h5⟩ := h
  set cs := s.toList with hcs
  refine ⟨cs.take 8, (cs.drop 9).take 4, (cs.drop 14).take 4, (cs.drop 19).take 4,
    cs.drop 24, ?_, ?_, ?_, ?_, ?_, ?_, h1, h2, h3, h4, h5⟩
  · have e8 : cs.take 8 ++ cs.drop 8 = cs := List.take_append_drop 8 cs
    have e9 : cs.drop 8 = '-' :: cs.drop 9 := by
      have h' := List.take_append_drop 1 (cs.drop 8)
      rw [d1, List.drop_drop] at h'
      norm_num at h'
      exact h'.symm
    have e13 : (cs.drop 9).take 4 ++ cs.drop 13 = cs.drop 9 := by
      have h' := List.take_append_drop 4 (cs.drop 9)
      rw [List.drop_drop] at h'
      norm_num at h'
      exact h'

    have e14 : cs.drop 13 = '-' :: cs.drop 14 := by
      have h' := List.take_append_drop 1 (cs.drop 13)
      rw [d2, List.drop_drop] at h'
      norm_num at h'
      exact h'.symm
    have e18 : (cs.drop 14).take 4 ++ cs.drop 18 = cs.drop 14 := by
      have h' := List.take_append_drop 4 (cs.drop 14)
      rw [List.drop_drop] at h'
      norm_num at h'
      exact h'

    have e19 : cs.drop 18 = '-' :: cs.drop 19 := by
      have h' := List.take_append_drop 1 (cs.drop 18)
      rw [d3, List.drop_drop] at h'
      norm_num at h'
      exact h'.symm
    have e23 : (cs.drop 19).take 4 ++ cs.drop 23 = cs.drop 19 := by
      have h' := List.take_append_drop 4 (cs.drop 19)
      rw [List.drop_drop] at h'
      norm_num at h'
      exact h'

    have e24 : cs.drop 23 = '-' :: cs.drop 24 := by
      have h' := List.take_append_drop 1 (cs.drop 23)
      rw [d4, List.drop_drop] at h'
      norm_num at h'
      exact h'.symm
    calc cs = cs.take 8 ++ cs.drop 8 := e8.symm
      _ = cs.take 8 ++ '-' :: cs.drop 9 := by rw [e9]
      _ = cs.take 8 ++ '-' :: ((cs.drop 9).take 4 ++ cs.drop 13) := by rw [e13]
      _ = cs.take 8 ++ '-' :: ((cs.drop 9).take 4 ++ ('-' :: cs.drop 14)) := by rw [e14]
      _ = cs.take 8 ++ '-' :: ((cs.drop 9).take 4 ++
            ('-' :: ((cs.drop 14).take 4 ++ cs.drop 18))) := by rw [e18]
      _ = cs.take 8 ++ '-' :: ((cs.drop 9).take 4 ++
            ('-' :: ((cs.drop 14).take 4 ++ ('-' :: cs.drop 19)))) := by rw [e19]
      _ = cs.take 8 ++ '-' :: ((cs.drop 9).take 4 ++
            ('-' :: ((cs.drop 14).take 4 ++
              ('-' :: ((cs.drop 19).take 4 ++ cs.drop 23))))) := by rw [e23]
      _ = cs.take 8 ++ '-' :: ((cs.drop 9).take 4 ++
            ('-' :: ((cs.drop 14).take 4 ++
              ('-' :: ((cs.drop 19).take 4 ++ ('-' :: cs.drop 24)))))) := by rw [e24]
      _ = cs.take 8 ++ '-' :: (cs.drop 9).take 4 ++ '-' :: (cs.drop 14).take 4 ++
            '-' :: (cs.drop 19).take 4 ++ '-' :: cs.drop 24 := by
        simp [List.append_assoc]
  · rw [List.length_take, hlen]
    decide
  · rw [List.length_take, List.length_drop, hlen]
    decide
  · rw [List.length_take, List.length_drop, hlen]
    decide
  · rw [List.length_take, List.length_drop, hlen]
    decide
  · rw [List.length_drop, hlen]

theorem length_filter_parts {g1 g2 g3 g4 g5 : List Char}
    (a1 : g1.all isHexLower = true) (a2 : g2.all isHexLower = true)
    (a3 : g3.all isHexLower = true) (a4 : g4.all isHexLower = true)
    (a5 : g5.all isHexLower = true) :
    (g1 ++ '-' :: g2 ++ '-' :: g3 ++ '-' :: g4 ++ '-' :: g5).filter
      (fun c => decide (c ≠ '-')) = g1 ++ (g2 ++ (g3 ++ (g4 ++ g5))) := by
  have hfe : ∀ g : List Char, g.all isHexLower = true →
      g.filter (fun c => decide (c ≠ '-')) = g := by
    intro g hg
    refine List.filter_eq_self.mpr ?_
    intro c hc
    exact decide_eq_true (hexLower_ne_dash (List.all_eq_true.mp hg c hc))
  have hdash : (fun c => decide (c ≠ '-')) '-' = false := by decide
  simp only [List.append_assoc, List.filter_append, List.filter_cons, hdash,
    Bool.false_eq_true, if_false, hfe g1 a1, hfe g2 a2, hfe g3 a3, hfe g4 a4, hfe g5 a5]

/-- Stripping a dashed identifier yields the undashed canonical form. -/
theorem stripDashes_dashed_spec {s : String} (h : isDashedId s = true) :
    isUndashedId (stripDashes s) = true ∧ insertDashes (stripDashes s) = s := by
  obtain ⟨g1, g2, g3, g4, g5, hparts, l1, l2, l3, l4, l5, a1, a2, a3, a4, a5⟩ :=
    isDashedId_parts h
  have htl : (stripDashes s).toList = g1 ++ (g2 ++ (g3 ++ (g4 ++ g5))) := by
    show (s.toList.filter (fun c => decide (c ≠ '-'))) = _
    rw [hparts]
    exact length_filter_parts a1 a2 a3 a4 a5
  constructor
  · simp only [isUndashedId, htl, Bool.and_eq_true, beq_iff_eq]
    constructor
    · simp [List.length_append, l1, l2, l3, l4, l5]
    · simp only [List.all_append, Bool.and_eq_true, List.all_cons]
      exact ⟨a1, a2, a3, a4, a5⟩
  · have t8 : (stripDashes s).toList.take 8 = g1 := by
      rw [htl]
      exact List.take_left' l1
    have d8 : (stripDashes s).toList.drop 8 = g2 ++ (g3 ++ (g4 ++ g5)) := by
      rw [htl]
      exact List.drop_left' l1
    have t12 : ((stripDashes s).toList.drop 8).take 4 = g2 := by
      rw [d8]
      exact List.take_left' l2
    have d12 : (stripDashes s).toList.drop 12 = g3 ++ (g4 ++ g5) := by
      rw [htl]
      have : g1 ++ (g2 ++ (g3 ++ (g4 ++ g5))) = (g1 ++ g2) ++ (g3 ++ (g4 ++ g5)) := by
        simp [List.append_assoc]
      rw [this]
      exact List.drop_left' (by simp [l1, l2])
    have t16 : ((stripDashes s).toList.drop 12).take 4 = g3 := by
      rw [d12]
      exact List.take_left' l3
    have d16 : (stripDashes s).toList.drop 16 = g4 ++ g5 := by
      rw [htl]
      have : g1 ++ (g2 ++ (g3 ++ (g4 ++ g5))) = (g1 ++ g2 ++ g3) ++ (g4 ++ g5) := by
        simp [List.append_assoc]
      rw [this]
      exact List.drop_left' (by simp [l1, l2, l3])
    have t20 : ((stripDashes s).toList.drop 16).take 4 = g4 := by
      rw [d16]
      exact List.take_left' l4
    have d20 : (stripDashes s).toList.drop 20 = g5 := by
      rw [htl]
      have : g1 ++ (g2 ++ (g3 ++ (g4 ++ g5))) = (g1 ++ g2 ++ g3 ++ g4) ++ g5 := by
        simp [List.append_assoc]
      rw [this]
      exact List.drop_left' (by simp [l1, l2, l3, l4])
    show String.mk _ = s
    rw [t8, t12, t16, t20, d20]
    conv_rhs => rw [show s = String.mk s.toList from rfl, hparts]

theorem isUndashedId_length {u : String} (h : isUndashedId u = true) :
    u.toList.length = 32 := by
  simp only [isUndashedId, Bool.and_eq_true, beq_iff_eq] at h
  exact h.1

theorem isDashedId_length {s : String} (h : isDashedId s = true) :
    s.toList.length = 36 := by
  simp only [isDashedId, Bool.and_eq_true, beq_iff_eq] at h
  exact h.1.1.1.1.1.1.1.1.1

theorem not_isUndashedId_of_isDashedId {s : String} (h : isDashedId s = true) :
    isUndashedId s = false := by
  rw [Bool.eq_false_iff]
  intro hu
  have h32 := isUndashedId_length hu
  have h36 := isDashedId_length h
  rw [h32] at h36
  exact absurd h36 (by decide)

theorem parsePageId_undashed {u : String} (h : isUndashedId u = true) :
    parsePageId u = some u := by
  rw [parsePageId, if_pos h]

theorem parsePageId_dashed {s : String} (h : isDashedId s = true) :
    parsePageId s = some (stripDashes s) := by
  rw [parsePageId]
  rw [not_isUndashedId_of_isDashedId h]
  simp [h]

theorem normalizeKey_undashed {u : String} (h : isUndashedId u = true) :
    normalizeKey u = u := by
  rw [normalizeKey, parsePageId_undashed h]
  rfl

theorem normalizeKey_dashed {s : String} (h : isDashedId s = true) :
    normalizeKey s = stripDashes s := by
  rw [normalizeKey, parsePageId_dashed h]
  rfl

/-- When normalization changes a key, the key was dashed and the result is
its undashed form. -/
theorem normalizeKey_ne {s : String} (h : normalizeKey s ≠ s) :
    isDashedId s = true ∧ normalizeKey s = stripDashes s ∧
      isUndashedId (normalizeKey s) = true := by
  by_cases hu : isUndashedId s = true
  · exact absurd (normalizeKey_undashed hu) h
  · by_cases hd : isDashedId s = true
    · exact ⟨hd, normalizeKey_dashed hd,
        (normalizeKey_dashed hd) ▸ (stripDashes_dashed_spec hd).1⟩
    · exfalso
      apply h
      rw [normalizeKey, parsePageId]
      rw [Bool.not_eq_true] at hu hd
      rw [hu, hd]
      rfl

theorem normalizeKey_idem (s : String) : normalizeKey (normalizeKey s) = normalizeKey s := by
  by_cases h : normalizeKey s = s
  · rw [h, h]
  · exact normalizeKey_undashed (normalizeKey_ne h).2.2

theorem normalizeKey_empty {s : String} (h : normalizeKey s = "") : s = "" := by
  by_cases h2 : normalizeKey s = s
  · rw [← h2, h]
  · exfalso
    obtain ⟨_, _, hu⟩ := normalizeKey_ne h2
    have := isUndashedId_length hu
    rw [h] at this
    simp at this

theorem stripDashes_inj {a b : String} (ha : isDashedId a = true)
    (hb : isDashedId b = true) (h : stripDashes a = stripDashes b) : a = b := by
  have h1 := (stripDashes_dashed_spec ha).2
  have h2 := (stripDashes_dashed_spec hb).2
  rw [← h1, ← h2, h]

/-- At most one key in each canonical class has a distinct normal form. -/
theorem normalizeKey_inj {a b : String} (ha : normalizeKey a ≠ a)
    (hb : normalizeKey b ≠ b) (h : normalizeKey a = normalizeKey b) : a = b := by
  obtain ⟨da, ea, _⟩ := normalizeKey_ne ha
  obtain ⟨db, eb, _⟩ := normalizeKey_ne hb
  rw [ea, eb] at h
  exact stripDashes_inj da db h

/-! ### Lemmas about the per-record processing -/

theorem nested_flattenValue (v : BValue) : (flattenValue v).nested = v.nested.tail := by
  obtain ⟨core, nested⟩ := v
  cases nested <;> rfl

theorem flattenValue_of_flat {v : BValue} (h : v.nested = []) : flattenValue v = v := by
  obtain ⟨core, nested⟩ := v
  simp only at h
  subst h
  rfl

theorem nested_backfillId (k : String) (v : BValue) :
    (backfillId k v).nested = v.nested := by
  simp only [backfillId]
  split <;> split <;> rfl

theorem type_backfillId (k : String) (v : BValue) :
    (backfillId k v).type? = v.type? := by
  simp only [backfillId]
  split <;> split <;> rfl

theorem properties_backfillId (k : String) (v : BValue) :
    (backfillId k v).properties? = v.properties? := by
  simp only [backfillId]
  split <;> split <;> rfl

theorem content_backfillId (k : String) (v : BValue) :
    (backfillId k v).content? = v.content? := by
  simp only [backfillId]
  split <;> split <;> rfl

theorem parentTable_backfillId (k : String) (v : BValue) :
    (backfillId k v).parentTable? = v.parentTable? := by
  simp only [backfillId]
  split <;> split <;> rfl

theorem backfillId_of_id_present {k : String} {v : BValue}
    (h : strFalsy v.id? = false) : backfillId k v = v := by
  rw [backfillId]
  simp [h]

theorem id_backfillId {k : String} (hk : k ≠ "") (v : BValue) :
    strFalsy (backfillId k v).id? = false := by
  by_cases hid : strFalsy v.id? = true
  · have hcond : (decide (k ≠ "") && strFalsy v.id?) = true := by
      rw [hid, Bool.and_true, decide_eq_true_eq]
      exact hk
    simp only [backfillId, if_pos hk]
    rw [if_pos hcond]
    show strFalsy (some k) = false
    simp [strFalsy, hk]
  · rw [Bool.not_eq_true] at hid
    rw [backfillId_of_id_present hid]
    exact hid

theorem inferBlockType_ne_empty (v : BValue) : inferBlockType v ≠ "" := by
  rw [inferBlockType]
  split
  · decide
  · split
    · decide
    · split <;> decide

theorem nested_setTypeIfMissing (v : BValue) :
    (setTypeIfMissing v).nested = v.nested := by
  rw [setTypeIfMissing]
  split <;> rfl

theorem id_setTypeIfMissing (v : BValue) : (setTypeIfMissing v).id? = v.id? := by
  rw [setTypeIfMissing]
  split <;> rfl

theorem setTypeIfMissing_of_type_present {v : BValue}
    (h : strFalsy v.type? = false) : setTypeIfMissing v = v := by
  rw [setTypeIfMissing]
  simp [h]

theorem type_setTypeIfMissing (v : BValue) :
    strFalsy (setTypeIfMissing v).type? = false := by
  by_cases h : strFalsy v.type? = true
  · rw [setTypeIfMissing, if_pos h]
    simp only [BValue.withType, BValue.type?, strFalsy]
    simp [inferBlockType_ne_empty v]
  · rw [Bool.not_eq_true] at h
    rw [setTypeIfMissing_of_type_present h]
    exact h

theorem nested_processValue (k : String) (v : BValue) :
    (processValue k v).nested = v.nested.tail := by
  rw [processValue, nested_setTypeIfMissing, nested_backfillId, nested_flattenValue]

theorem id_processValue {k : String} (hk : k ≠ "") (v : BValue) :
    strFalsy (processValue k v).id? = false := by
  rw [processValue, id_setTypeIfMissing]
  exact id_backfillId hk _

theorem type_processValue (k : String) (v : BValue) :
    strFalsy (processValue k v).type? = false :=
  type_setTypeIfMissing _

theorem processValue_of_sanitized {k : String} {v : BValue} (hn : v.nested = [])
    (hid : strFalsy v.id? = false) (hty : strFalsy v.type? = false) :
    processValue k v = v := by
  rw [processValue, flattenValue_of_flat hn, backfillId_of_id_present hid,
    setTypeIfMissing_of_type_present hty]

theorem finalIdFix_of_id_present {k : String} {rec : BRecord} {v : BValue}
    (hv : rec.value = some v) (hid : strFalsy v.id? = false) :
    finalIdFix k rec = rec := by
  rw [finalIdFix, hv]
  simp [hid]

theorem storedRecord_eq {k : String} {rec : BRecord} {v0 : BValue} (hk : k ≠ "")
    (hv : rec.value = some v0) :
    storedRecord k rec = { rec with value := some (processValue k v0) } := by
  rw [storedRecord, processRecord, hv]
  exact finalIdFix_of_id_present rfl (id_processValue hk v0)

theorem storedRecord_of_stable {kv : String × BRecord} (h : StableEntry kv) :
    storedRecord kv.1 kv.2 = kv.2 := by
  obtain ⟨k, rec⟩ := kv
  obtain ⟨hk, v, hv, hn, hid, hty⟩ := h
  rw [storedRecord_eq hk hv, processValue_of_sanitized hn hid hty]
  obtain ⟨role, value⟩ := rec
  simp only at hv
  simp [hv]

theorem stable_storedRecord {k k' : String} {rec : BRecord} {v0 : BValue}
    (hk : k ≠ "") (hk' : k' ≠ "") (hv : rec.value = some v0)
    (hn : v0.nested.tail = []) : StableEntry (k', storedRecord k rec) := by
  refine ⟨hk', processValue k v0, ?_, ?_, ?_, ?_⟩
  · rw [storedRecord_eq hk hv]
  · rw [nested_processValue]
    exact hn
  · exact id_processValue hk v0
  · exact type_processValue k v0

/-! ### The block-sanitizing step -/

theorem sanitizeBlockStep_none {out : List (String × BRecord)} {kv : String × BRecord}
    (h : kv.2.value = none) : sanitizeBlockStep out kv = out := by
  rw [sanitizeBlockStep, h]

theorem sanitizeBlockStep_emptyKey {out : List (String × BRecord)} {kv : String × BRecord}
    (h : kv.1 = "") : sanitizeBlockStep out kv = out := by
  rw [sanitizeBlockStep]
  cases hv : kv.2.value
  · rfl
  · simp [h]

theorem normalizeKey_ne_empty {k : String} (hk : k ≠ "") : normalizeKey k ≠ "" :=
  fun h => hk (normalizeKey_empty h)

theorem sanitizeBlockStep_fixed {out : List (String × BRecord)} {k : String}
    {rec : BRecord} {v : BValue} (hv : rec.value = some v) (hk : k ≠ "")
    (hnk : normalizeKey k = k) :
    sanitizeBlockStep out (k, rec) = objSet k (storedRecord k rec) out := by
  rw [sanitizeBlockStep]
  simp only [hv, if_pos hk]
  simp [hnk]

theorem sanitizeBlockStep_dashed {out : List (String × BRecord)} {k : String}
    {rec : BRecord} {v : BValue} (hv : rec.value = some v) (hk : k ≠ "")
    (hnk : normalizeKey k ≠ k) :
    sanitizeBlockStep out (k, rec) =
      objSet (normalizeKey k) (storedRecord k rec) (objSet k (storedRecord k rec) out) := by
  rw [sanitizeBlockStep]
  simp only [hv, if_pos hk]
  simp [hnk, normalizeKey_ne_empty hk]

theorem objGet_sanitizeBlockStep_other {out : List (String × BRecord)} {k c : String}
    {rec : BRecord} (hkc : k ≠ c) (hnc : normalizeKey k ≠ c) :
    objGet c (sanitizeBlockStep out (k, rec)) = objGet c out := by
  cases hv : rec.value with
  | none => rw [sanitizeBlockStep_none hv]
  | some v =>
    by_cases hk : k = ""
    · rw [sanitizeBlockStep_emptyKey hk]
    · by_cases hnk : normalizeKey k = k
      · rw [sanitizeBlockStep_fixed hv hk hnk, objGet_objSet_ne hkc]
      · rw [sanitizeBlockStep_dashed hv hk hnk, objGet_objSet_ne hnc,
          objGet_objSet_ne hkc]

theorem objGet_sanitizeBlockStep_writes {out : List (String × BRecord)} {k c : String}
    {rec : BRecord} {v : BValue} (hv : rec.value = some v) (hk : k ≠ "")
    (hc : k = c ∨ normalizeKey k = c) :
    objGet c (sanitizeBlockStep out (k, rec)) = some (storedRecord k rec) := by
  by_cases hnk : normalizeKey k = k
  · rw [sanitizeBlockStep_fixed hv hk hnk]
    have : k = c := by
      rcases hc with hc | hc
      · exact hc
      · rw [← hnk, hc]
    rw [this]
    exact objGet_objSet_self _ _ _
  · rw [sanitizeBlockStep_dashed hv hk hnk]
    rcases hc with hc | hc
    · subst hc
      rw [objGet_objSet_ne hnk]
      exact objGet_objSet_self _ _ _
    · subst hc
      exact objGet_objSet_self _ _ _

theorem objGet_foldl_no_writes {L : List (String × BRecord)}
    {out : List (String × BRecord)} {c : String}
    (h : ∀ kv ∈ L, kv.1 ≠ c ∧ normalizeKey kv.1 ≠ c) :
    objGet c (L.foldl sanitizeBlockStep out) = objGet c out := by
  induction L generalizing out with
  | nil => rfl
  | cons kv rest ih =>
    rw [List.foldl_cons]
    rw [ih (fun kv' h' => h kv' (List.mem_cons_of_mem _ h'))]
    obtain ⟨h1, h2⟩ := h kv (List.mem_cons_self _ _)
    obtain ⟨k, rec⟩ := kv
    exact objGet_sanitizeBlockStep_other h1 h2

/-- The binding of `c` in the sanitized block table is the processed record
of the last entry writing `c`. -/
theorem objGet_sanitizeBlocks_last_writer {A B : List (String × BRecord)}
    {k c : String} {rec : BRecord} {v : BValue}
    (hv : rec.value = some v) (hk : k ≠ "") (hc : k = c ∨ normalizeKey k = c)
    (hB : ∀ kv ∈ B, kv.1 ≠ c ∧ normalizeKey kv.1 ≠ c) :
    objGet c (sanitizeBlocks (A ++ (k, rec) :: B)) = some (storedRecord k rec) := by
  rw [sanitizeBlocks, List.foldl_append, List.foldl_cons]
  rw [objGet_foldl_no_writes hB]
  exact objGet_sanitizeBlockStep_writes hv hk hc

theorem mem_foldl_sanitizeBlockStep {es acc : List (String × BRecord)}
    {kv : String × BRecord} (h : kv ∈ es.foldl sanitizeBlockStep acc) :
    kv ∈ acc ∨ ∃ k0 rec0 v0, (k0, rec0) ∈ es ∧ rec0.value = some v0 ∧ k0 ≠ "" ∧
      kv.2 = storedRecord k0 rec0 := by
  induction es generalizing acc with
  | nil => exact Or.inl h
  | cons kv0 rest ih =>
    rw [List.foldl_cons] at h
    rcases ih h with h | h
    · obtain ⟨k0, rec0⟩ := kv0
      cases hv : rec0.value with
      | none =>
        rw [sanitizeBlockStep_none hv] at h
        exact Or.inl h
      | some v0 =>
        by_cases hk : k0 = ""
        · rw [sanitizeBlockStep_emptyKey hk] at h
          exact Or.inl h
        · by_cases hnk : normalizeKey k0 = k0
          · rw [sanitizeBlockStep_fixed hv hk hnk] at h
            rcases mem_of_mem_objSet h with h | h
            · exact Or.inr ⟨k0, rec0, v0, List.mem_cons_self _ _, hv, hk, by rw [h]⟩
            · exact Or.inl h
          · rw [sanitizeBlockStep_dashed hv hk hnk] at h
            rcases mem_of_mem_objSet h with h | h
            · exact Or.inr ⟨k0, rec0, v0, List.mem_cons_self _ _, hv, hk, by rw [h]⟩
            · rcases mem_of_mem_objSet h with h | h
              · exact Or.inr ⟨k0, rec0, v0, List.mem_cons_self _ _, hv, hk, by rw [h]⟩
              · exact Or.inl h
    · obtain ⟨k0, rec0, v0, hmem, hrest⟩ := h
      exact Or.inr ⟨k0, rec0, v0, List.mem_cons_of_mem _ hmem, hrest⟩

/-! ### Lemmas about the reference resolver -/

theorem contains_eq_false_of_not_mem {l : List String} {x : String} (h : x ∉ l) :
    l.contains x = false := by
  simp [List.contains]
  exact h

theorem insertDashes_ne_empty (s : String) : insertDashes s ≠ "" := by
  intro h
  have h2 : (insertDashes s).toList = "".toList := by rw [h]
  rw [insertDashes] at h2
  simp at h2

/-- Resolution step (a): an identifier that is itself a non-empty storage
key resolves to itself. -/
theorem resolveChild_exact {keys : List String} {nmap : List (String × String)}
    {c : String} (hc : c ∈ keys) (hne : c ≠ "") :
    resolveChild keys nmap c = some c := by
  simp only [resolveChild, List.elem_eq_true_of_mem hc, if_true]
  simp [hne]

/-- Resolution step (b): otherwise a hit for the canonical form in the
normalized-key map resolves to the stored key. -/
theorem resolveChild_viaMap {keys : List String} {nmap : List (String × String)}
    {c m : String} (hc : c ∉ keys) (hm : objGet (normalizeKey c) nmap = some m)
    (hmne : m ≠ "") : resolveChild keys nmap c = some m := by
  simp only [resolveChild, contains_eq_false_of_not_mem hc, Bool.false_eq_true,
    if_false, hm, Option.getD_some]
  simp [hmne]

/-- Resolution step (c): otherwise, when the canonical form is 32
case-insensitive hex characters, the re-dashed form is tried as a key. -/
theorem resolveChild_viaDashes {keys : List String} {nmap : List (String × String)}
    {c : String} (hc : c ∉ keys) (hm : objGet (normalizeKey c) nmap = none)
    (h32 : (normalizeKey c).toList.length = 32)
    (hhex : (normalizeKey c).toList.all isHexCI = true)
    (hd : insertDashes (normalizeKey c) ∈ keys) :
    resolveChild keys nmap c = some (insertDashes (normalizeKey c)) := by
  simp only [resolveChild, contains_eq_false_of_not_mem hc, Bool.false_eq_true,
    if_false, hm, Option.getD_none, h32, hhex, List.elem_eq_true_of_mem hd]
  simp [insertDashes_ne_empty]

/-- Every map hit comes from a storage key, recorded under itself or under
its canonical form. -/
theorem normalizedBlockKeys_spec_aux (ks : List String) (acc : List (String × String))
    {x m : String}
    (h : objGet x (ks.foldl (fun m key => objSet key key (objSet (normalizeKey key) key m)) acc)
      = some m) :
    (m ∈ ks ∧ (x = m ∨ normalizeKey m = x)) ∨ objGet x acc = some m := by
  induction ks generalizing acc with
  | nil => exact Or.inr h
  | cons key rest ih =>
    rw [List.foldl_cons] at h
    rcases ih _ h with h2 | h2
    · exact Or.inl ⟨List.mem_cons_of_mem _ h2.1, h2.2⟩
    · by_cases hx : x = key
      · subst hx
        rw [objGet_objSet_self] at h2
        injection h2 with h2
        subst h2
        exact Or.inl ⟨List.mem_cons_self _ _, Or.inl rfl⟩
      · rw [objGet_objSet_ne (fun h' => hx h'.symm)] at h2
        by_cases hx2 : x = normalizeKey key
        · rw [hx2, objGet_objSet_self] at h2
          injection h2 with h2
          subst h2
          exact Or.inl ⟨List.mem_cons_self _ _, Or.inr hx2.symm⟩
        · rw [objGet_objSet_ne (fun h' => hx2 h'.symm)] at h2
          exact Or.inr h2

theorem normalizedBlockKeys_spec {es : List (String × BRecord)} {x m : String}
    (h : objGet x (normalizedBlockKeys es) = some m) :
    m ∈ allBlockKeys es ∧ (x = m ∨ normalizeKey m = x) := by
  rcases normalizedBlockKeys_spec_aux (allBlockKeys es) [] h with h2 | h2
  · exact h2
  · simp [objGet] at h2

theorem normalizedBlockKeys_key_present_aux (ks : List String)
    (acc : List (String × String)) {d : String}
    (hd : d ∈ ks ∨ normalizeKey d ∈ objKeys acc) :
    normalizeKey d ∈ objKeys
      (ks.foldl (fun m key => objSet key key (objSet (normalizeKey key) key m)) acc) := by
  induction ks generalizing acc with
  | nil =>
    rcases hd with hd | hd
    · simp at hd
    · exact hd
  | cons key rest ih =>
    rw [List.foldl_cons]
    rcases hd with hd | hd
    · rcases List.mem_cons.mp hd with hd | hd
      · subst hd
        refine ih _ (Or.inr ?_)
        have h1 : (normalizeKey d, d) ∈ objSet (normalizeKey d) d acc :=
          mem_objSet_self _ _ _
        have h2 : normalizeKey d ∈ objKeys (objSet (normalizeKey d) d acc) :=
          List.mem_map.mpr ⟨(normalizeKey d, d), h1, rfl⟩
        exact objKeys_mono_objSet h2 d d
      · exact ih _ (Or.inl hd)
    · refine ih _ (Or.inr ?_)
      exact objKeys_mono_objSet (objKeys_mono_objSet hd (normalizeKey key) key) key key

theorem normalizedBlockKeys_key_present {es : List (String × BRecord)} {d : String}
    (hd : d ∈ allBlockKeys es) :
    normalizeKey d ∈ objKeys (normalizedBlockKeys es) :=
  normalizedBlockKeys_key_present_aux (allBlockKeys es) [] (Or.inl hd)

theorem mem_setAdd {x s : String} {l : List String} :
    x ∈ setAdd s l ↔ x = s ∨ x ∈ l := by
  rw [setAdd]
  by_cases h : s ∈ l
  · rw [if_pos h]
    constructor
    · exact Or.inr
    · rintro (rfl | hx)
      · exact h
      · exact hx
  · rw [if_neg h]
    simp [or_comm]

theorem nodup_setAdd {s : String} {l : List String} (h : l.Nodup) :
    (setAdd s l).Nodup := by
  rw [setAdd]
  by_cases hs : s ∈ l
  · rwa [if_pos hs]
  · rw [if_neg hs]
    rw [List.nodup_append]
    exact ⟨h, List.nodup_singleton s, fun x hx => by
      simp only [List.mem_singleton]
      intro hxs
      exact hs (hxs ▸ hx)⟩

theorem mem_snd_collectItem {K : List String} {N : List (String × String)}
    {acc : List String × List String} {it : ContentItem} {x : String} :
    x ∈ (collectItem K N acc it).2 ↔
      x ∈ acc.2 ∨ (it = .str x ∧ resolveChild K N x = none) := by
  cases it with
  | nonstr t => simp [collectItem, classifyChild]
  | str s =>
    cases hr : resolveChild K N s with
    | some k =>
      simp only [collectItem, classifyChild, hr]
      constructor
      · exact Or.inl
      · rintro (hx | ⟨hs, hmiss⟩)
        · exact hx
        · injection hs with hs
          rw [← hs] at hmiss
          rw [hr] at hmiss
          exact absurd hmiss (by simp)
    | none =>
      simp only [collectItem, classifyChild, hr, mem_setAdd]
      constructor
      · rintro (rfl | hx)
        · exact Or.inr ⟨rfl, hr⟩
        · exact Or.inl hx
      · rintro (hx | ⟨hs, _⟩)
        · exact Or.inr hx
        · injection hs with hs
          exact Or.inl hs.symm

theorem snd_collectItem_nodup {K : List String} {N : List (String × String)}
    {acc : List String × List String} (it : ContentItem) (h : acc.2.Nodup) :
    (collectItem K N acc it).2.Nodup := by
  cases it with
  | nonstr t => exact h
  | str s =>
    cases hr : resolveChild K N s with
    | some k =>
      simp only [collectItem, classifyChild, hr]
      exact h
    | none =>
      simp only [collectItem, classifyChild, hr]
      exact nodup_setAdd h

theorem mem_snd_foldl_items {K : List String} {N : List (String × String)}
    {items : List ContentItem} {acc : List String × List String} {x : String} :
    x ∈ (items.foldl (collectItem K N) acc).2 ↔
      x ∈ acc.2 ∨ (ContentItem.str x ∈ items ∧ resolveChild K N x = none) := by
  induction items generalizing acc with
  | nil => simp
  | cons it rest ih =>
    rw [List.foldl_cons, ih, mem_snd_collectItem]
    constructor
    · rintro ((hx | ⟨rfl, hm⟩) | ⟨hmem, hm⟩)
      · exact Or.inl hx
      · exact Or.inr ⟨List.mem_cons_self _ _, hm⟩
      · exact Or.inr ⟨List.mem_cons_of_mem _ hmem, hm⟩
    · rintro (hx | ⟨hmem, hm⟩)
      · exact Or.inl (Or.inl hx)
      · rcases List.mem_cons.mp hmem with heq | hmem
        · exact Or.inl (Or.inr ⟨heq.symm, hm⟩)
        · exact Or.inr ⟨hmem, hm⟩

theorem mem_missingBlockIds_iff {es : List (String × BRecord)} {x : String} :
    x ∈ missingBlockIds es ↔
      (∃ kv ∈ es, ContentItem.str x ∈ contentOf kv.2) ∧
        resolveChild (allBlockKeys es) (normalizedBlockKeys es) x = none := by
  rw [missingBlockIds, collectRefs]
  have aux : ∀ (es2 : List (String × BRecord)) (acc : List String × List String),
      x ∈ (es2.foldl (fun acc kv =>
          (contentOf kv.2).foldl
            (collectItem (allBlockKeys es) (normalizedBlockKeys es)) acc) acc).2 ↔
        x ∈ acc.2 ∨ ((∃ kv ∈ es2, ContentItem.str x ∈ contentOf kv.2) ∧
          resolveChild (allBlockKeys es) (normalizedBlockKeys es) x = none) := by
    intro es2
    induction es2 with
    | nil => simp
    | cons kv rest ih =>
      intro acc
      rw [List.foldl_cons, ih, mem_snd_foldl_items]
      constructor
      · rintro ((hx | ⟨hmem, hm⟩) | ⟨⟨kv', hkv', hmem⟩, hm⟩)
        · exact Or.inl hx
        · exact Or.inr ⟨⟨kv, List.mem_cons_self _ _, hmem⟩, hm⟩
        · exact Or.inr ⟨⟨kv', List.mem_cons_of_mem _ hkv', hmem⟩, hm⟩
      · rintro (hx | ⟨⟨kv', hkv', hmem⟩, hm⟩)
        · exact Or.inl (Or.inl hx)
        · rcases List.mem_cons.mp hkv' with heq | hkv'
          · exact Or.inl (Or.inr ⟨heq ▸ hmem, hm⟩)
          · exact Or.inr ⟨⟨kv', hkv', hmem⟩, hm⟩
  rw [aux es ([], [])]
  simp

theorem nodup_missingBlockIds (es : List (String × BRecord)) :
    (missingBlockIds es).Nodup := by
  rw [missingBlockIds, collectRefs]
  have aux : ∀ (es2 : List (String × BRecord)) (acc : List String × List String),
      acc.2.Nodup →
      (es2.foldl (fun acc kv =>
          (contentOf kv.2).foldl
            (collectItem (allBlockKeys es) (normalizedBlockKeys es)) acc) acc).2.Nodup := by
    intro es2
    induction es2 with
    | nil => exact fun acc h => h
    | cons kv rest ih =>
      intro acc hacc
      rw [List.foldl_cons]
      refine ih _ ?_
      have aux2 : ∀ (items : List ContentItem) (acc2 : List String × List String),
          acc2.2.Nodup →
          (items.foldl (collectItem (allBlockKeys es) (normalizedBlockKeys es)) acc2).2.Nodup := by
        intro items
        induction items with
        | nil => exact fun acc2 h => h
        | cons it rest2 ih2 =>
          intro acc2 hacc2
          rw [List.foldl_cons]
          exact ih2 _ (snd_collectItem_nodup it hacc2)
      exact aux2 _ _ hacc
  exact aux es ([], []) List.nodup_nil

theorem strFalsy_eq_false_iff {o : Option String} :
    strFalsy o = false ↔ ∃ t, o = some t ∧ t ≠ "" := by
  cases o with
  | none => simp [strFalsy]
  | some t =>
    simp [strFalsy]

/-! ### Claim theorems -/

/-- C3: every block in `sanitizeRecordMap`'s output has a non-empty `type`;
a block lacking one (after flattening) is tagged by the priority cascade:
has properties → the generic text type; else has a content array → the
column/list container type; else `parent_table = 'collection'` → the page
type; else the generic text type. -/
theorem C3_type_inference :
    (∀ (r : RecordMap) (bs : List (String × BRecord)) (kv : String × BRecord),
      (sanitizeRecordMap r).block = some bs → kv ∈ bs →
        ∃ v t, kv.2.value = some v ∧ v.type? = some t ∧ t ≠ "") ∧
    (∀ (k : String) (v0 : BValue), strFalsy (flattenValue v0).type? = true →
      (processValue k v0).type? =
        some (if ((flattenValue v0).properties?).isSome then "text"
          else if ((flattenValue v0).content?).isSome then "column_list"
          else if (flattenValue v0).parentTable? = some "collection" then "page"
          else "text")) := by
  constructor
  · intro r bs kv hb hmem
    cases hrb : r.block with
    | none =>
      rw [sanitizeRecordMap, hrb] at hb
      rw [hrb] at hb
      cases hb
    | some es =>
      rw [sanitizeRecordMap, hrb] at hb
      injection hb with hb
      subst hb
      rcases mem_foldl_sanitizeBlockStep hmem with h | ⟨k0, rec0, v0, _, hv0, hk0, hst⟩
      · simp at h
      · rw [hst, storedRecord_eq hk0 hv0]
        obtain ⟨t, ht, htne⟩ := strFalsy_eq_false_iff.mp (type_processValue k0 v0)
        exact ⟨processValue k0 v0, t, rfl, ht, htne⟩
  · intro k v0 hty
    rw [processValue]
    have hty2 : strFalsy (backfillId k (flattenValue v0)).type? = true := by
      rwa [type_backfillId]
    rw [setTypeIfMissing, if_pos hty2]
    show some _ = some _
    rw [inferBlockType]
    rw [properties_backfillId, content_backfillId, parentTable_backfillId,
      type_backfillId] at *
    congr 1
    by_cases h1 : ((flattenValue v0).properties?).isSome
    · simp [h1]
    · simp only [h1, Bool.false_eq_true, if_false]
      by_cases h2 : ((flattenValue v0).content?).isSome
      · simp [h2]
      · simp only [h2, Bool.false_eq_true, if_false]
        by_cases h3 : (flattenValue v0).parentTable? = some "collection"
        · simp [h3]
        · simp [h3]

theorem C3_type_inference_witness :
    (∃ v t, ((⟨none, some ⟨{ cCore0 with id := some "a", type := some "text" }, []⟩⟩ :
        BRecord)).value = some v ∧ v.type? = some t ∧ t ≠ "") ∧
    (processValue "a" ⟨cCore0, []⟩).type? = some "text" :=
  ⟨C3_type_inference.1 c3Map (sanitizeBlocks [("a", cRec0)])
      ("a", ⟨none, some ⟨{ cCore0 with id := some "a", type := some "text" }, []⟩⟩)
      rfl (by decide),
    C3_type_inference.2 "a" ⟨cCore0, []⟩ (by decide)⟩

/-- C4: a block record in wrapper form has its value replaced by the merge
of the wrapper's own fields (minus the nested `value`) with the inner
block's fields, inner fields winning; records not in wrapper form pass
through the flattening step unchanged; and the spec's concrete example
`{ role: 'reader', value: { id: 'x', type: 'page' } }` flattens to
`{ role: 'reader', id: 'x', type: 'page' }` through `sanitizeRecordMap`. -/
theorem C4_flattening :
    (∀ v0 inner : BValue, v0.value? = some inner →
      (flattenValue v0).id? = mergeField inner.id? v0.id? ∧
      (flattenValue v0).type? = mergeField inner.type? v0.type? ∧
      (flattenValue v0).properties? = mergeField inner.properties? v0.properties? ∧
      (flattenValue v0).content? = mergeField inner.content? v0.content? ∧
      (flattenValue v0).parentTable? = mergeField inner.parentTable? v0.parentTable? ∧
      (flattenValue v0).role? = mergeField inner.role? v0.role? ∧
      (flattenValue v0).value? = inner.value?) ∧
    (∀ v0 : BValue, v0.value? = none → flattenValue v0 = v0) ∧
    ((sanitizeRecordMap c4Map).block = some [("x", ⟨none, some c4Expected⟩)]) := by
  refine ⟨?_, ?_, by decide⟩
  · intro v0 inner hv
    obtain ⟨core, nested⟩ := v0
    cases nested with
    | nil => exact absurd hv (by simp [BValue.value?])
    | cons c rest =>
      rw [BValue.value?] at hv
      injection hv with hv
      subst hv
      exact ⟨rfl, rfl, rfl, rfl, rfl, rfl, rfl⟩
  · intro v0 hv
    obtain ⟨core, nested⟩ := v0
    cases nested with
    | nil => rfl
    | cons c rest => exact absurd hv (by simp [BValue.value?])

theorem C4_flattening_witness :
    ((flattenValue c4Wrapped).id? = mergeField c4Inner.id? c4Wrapped.id? ∧
      (flattenValue c4Wrapped).type? = mergeField c4Inner.type? c4Wrapped.type? ∧
      (flattenValue c4Wrapped).properties? = mergeField c4Inner.properties? c4Wrapped.properties? ∧
      (flattenValue c4Wrapped).content? = mergeField c4Inner.content? c4Wrapped.content? ∧
      (flattenValue c4Wrapped).parentTable? = mergeField c4Inner.parentTable? c4Wrapped.parentTable? ∧
      (flattenValue c4Wrapped).role? = mergeField c4Inner.role? c4Wrapped.role? ∧
      (flattenValue c4Wrapped).value? = c4Inner.value?) ∧
    flattenValue c4Flat = c4Flat :=
  ⟨C4_flattening.1 c4Wrapped c4Inner rfl, C4_flattening.2.1 c4Flat rfl⟩

/-- C5 (amended): every child identifier of string type in a content array
is classified, without any failure, into exactly one of resolved or
missing; non-string entries are skipped by the `typeof` guard and end in
neither set. -/
theorem C5_classification (es : List (String × BRecord)) (s : String)
    (hocc : ∃ kv ∈ es, ContentItem.str s ∈ contentOf kv.2) :
    ((∃ k, resolveChild (allBlockKeys es) (normalizedBlockKeys es) s = some k ∧
        classifyChild (allBlockKeys es) (normalizedBlockKeys es) (.str s) = .resolved k) ∧
      s ∉ missingBlockIds es) ∨
    (resolveChild (allBlockKeys es) (normalizedBlockKeys es) s = none ∧
      classifyChild (allBlockKeys es) (normalizedBlockKeys es) (.str s) = .missing ∧
      s ∈ missingBlockIds es) := by
  cases hr : resolveChild (allBlockKeys es) (normalizedBlockKeys es) s with
  | some k =>
    refine Or.inl ⟨⟨k, rfl, by simp [classifyChild, hr]⟩, ?_⟩
    intro hmem
    have := (mem_missingBlockIds_iff.mp hmem).2
    rw [hr] at this
    cases this
  | none =>
    exact Or.inr ⟨rfl, by simp [classifyChild, hr],
      mem_missingBlockIds_iff.mpr ⟨hocc, hr⟩⟩

theorem C5_classification_witness :
    ((∃ k, resolveChild (allBlockKeys c7Es) (normalizedBlockKeys c7Es) "zzz" = some k ∧
        classifyChild (allBlockKeys c7Es) (normalizedBlockKeys c7Es)
          (.str "zzz") = .resolved k) ∧
      "zzz" ∉ missingBlockIds c7Es) ∨
    (resolveChild (allBlockKeys c7Es) (normalizedBlockKeys c7Es) "zzz" = none ∧
      classifyChild (allBlockKeys c7Es) (normalizedBlockKeys c7Es)
        (.str "zzz") = .missing ∧
      "zzz" ∈ missingBlockIds c7Es) :=
  C5_classification c7Es "zzz" ⟨("p1", c7Rec), by decide, by decide⟩

/-- C5 counterexample: a non-string content entry is skipped, landing in
neither the resolved nor the missing set, contrary to the claim that every
content-array element is classified into exactly one of the two. -/
theorem C5_counterexample :
    ContentItem.nonstr 0 ∈ contentOf c5Rec ∧
    classifyChild (allBlockKeys c5Es) (normalizedBlockKeys c5Es)
      (ContentItem.nonstr 0) = ChildClass.skipped ∧
    missingBlockIds c5Es = [] ∧ referencedBlockIds c5Es = [] := by decide

/-- C6: each string child identifier is resolved by trying, in priority
order, (a) an exact match against the storage keys, (b) a lookup of its
canonical undashed form in the normalized-key map, and (c) when the
canonical form is exactly 32 hex characters, re-dashing it in 8-4-4-4-12
grouping and retrying the exact match; consequently an undashed reference
to a block stored under the equivalent dashed key is resolved, not
missing.  (Storage keys are assumed non-empty, per the data model.) -/
theorem C6_resolution_order (es : List (String × BRecord))
    (hne : "" ∉ allBlockKeys es) (c : String) :
    (c ∈ allBlockKeys es →
      resolveChild (allBlockKeys es) (normalizedBlockKeys es) c = some c) ∧
    (c ∉ allBlockKeys es → ∀ m,
      objGet (normalizeKey c) (normalizedBlockKeys es) = some m →
      resolveChild (allBlockKeys es) (normalizedBlockKeys es) c = some m) ∧
    (c ∉ allBlockKeys es →
      objGet (normalizeKey c) (normalizedBlockKeys es) = none →
      (normalizeKey c).toList.length = 32 →
      (normalizeKey c).toList.all isHexCI = true →
      insertDashes (normalizeKey c) ∈ allBlockKeys es →
      resolveChild (allBlockKeys es) (normalizedBlockKeys es) c =
        some (insertDashes (normalizeKey c))) ∧
    (isUndashedId c = true → c ∉ allBlockKeys es →
      (∃ d, d ∈ allBlockKeys es ∧ isDashedId d = true ∧ stripDashes d = c) →
      ∃ m, resolveChild (allBlockKeys es) (normalizedBlockKeys es) c = some m ∧
        m ∈ allBlockKeys es ∧ normalizeKey m = c) := by
  refine ⟨?_, ?_, ?_, ?_⟩
  · intro hc
    exact resolveChild_exact hc (fun h => hne (h ▸ hc))
  · intro hc m hm
    have hmk := normalizedBlockKeys_spec hm
    exact resolveChild_viaMap hc hm (fun h => hne (h ▸ hmk.1))
  · intro hc hm h32 hhex hd
    exact resolveChild_viaDashes hc hm h32 hhex hd
  · intro hu hc ⟨d, hd, hdd, hds⟩
    have hnc : normalizeKey c = c := normalizeKey_undashed hu
    have hnd : normalizeKey d = c := by
      rw [normalizeKey_dashed hdd, hds]
    have hpresent : normalizeKey d ∈ objKeys (normalizedBlockKeys es) :=
      normalizedBlockKeys_key_present hd
    rw [hnd] at hpresent
    obtain ⟨m, hm⟩ := objGet_isSome_of_mem hpresent
    have hmk := normalizedBlockKeys_spec hm
    refine ⟨m, ?_, hmk.1, ?_⟩
    · refine resolveChild_viaMap hc ?_ (fun h => hne (h ▸ hmk.1))
      rwa [hnc]
    · rcases hmk.2 with h | h
      · exact absurd (h ▸ hmk.1) hc
      · exact h

theorem C6_resolution_order_witness :
    ∃ m, resolveChild (allBlockKeys c6Es) (normalizedBlockKeys c6Es) cUKey = some m ∧
      m ∈ allBlockKeys c6Es ∧ normalizeKey m = cUKey :=
  (C6_resolution_order c6Es (by decide) cUKey).2.2.2 (by decide) (by decide)
    ⟨cDKey, by decide, by decide, by decide⟩

/-- C7 (amended): when child references fail to resolve, exactly one
diagnostic is emitted, reporting the number of *distinct* unresolved
identifiers (the `missingBlockIds` set deduplicates repeated references);
when every reference resolves, no diagnostic is emitted. -/
theorem C7_missing_aggregation (r : RecordMap) (es : List (String × BRecord))
    (hb : r.block = some es) :
    (missingBlockIds es = [] → sanitizeWarnings r = []) ∧
    (missingBlockIds es ≠ [] →
      sanitizeWarnings r = [(missingBlockIds es).length]) ∧
    (missingBlockIds es).Nodup ∧
    (∀ x, x ∈ missingBlockIds es ↔
      (∃ kv ∈ es, ContentItem.str x ∈ contentOf kv.2) ∧
        resolveChild (allBlockKeys es) (normalizedBlockKeys es) x = none) := by
  refine ⟨?_, ?_, nodup_missingBlockIds es, fun x => mem_missingBlockIds_iff⟩
  · intro hm
    rw [sanitizeWarnings, hb]
    simp [hm]
  · intro hm
    rw [sanitizeWarnings, hb]
    simp only
    rw [if_pos]
    exact List.length_pos.mpr hm

theorem C7_missing_aggregation_witness :
    sanitizeWarnings c7Map = [(missingBlockIds c7Es).length] ∧
      (missingBlockIds c7Es).Nodup :=
  ⟨(C7_missing_aggregation c7Map c7Es rfl).2.1 (by decide),
    (C7_missing_aggregation c7Map c7Es rfl).2.2.1⟩

/-- C7 counterexample: two failing references to the same identifier are
N = 2 failing child references, but the emitted diagnostic reports 1 (the
number of distinct unresolved identifiers), not 2. -/
theorem C7_counterexample :
    missingRefOccurrences c7Map = 2 ∧ sanitizeWarnings c7Map = [1] ∧
      sanitizeWarnings c7Map ≠ [2] := by decide

/-- C1 (amended): a block record with a non-empty storage key and a present
value, *whose canonical form is shared by no other input key*, appears in
the output under its original key with a non-empty id and type, and
additionally under its canonical undashed key when that differs, both
bindings holding the same sanitized record; no such record is dropped.
(On a canonical-form collision the later record overwrites the earlier
one's binding; see the last-write-wins behaviour.) -/
theorem C1_no_data_loss (r : RecordMap) (es : List (String × BRecord))
    (hb : r.block = some es) (hnd : (objKeys es).Nodup)
    (k : String) (rec : BRecord) (v : BValue)
    (hmem : (k, rec) ∈ es) (hk : k ≠ "") (hv : rec.value = some v)
    (hsolo : ∀ kv ∈ es, kv.1 ≠ k → normalizeKey kv.1 ≠ normalizeKey k) :
    ∃ bs, (sanitizeRecordMap r).block = some bs ∧
      objGet k bs = some (storedRecord k rec) ∧
      (∃ v' i t, (storedRecord k rec).value = some v' ∧
        v'.id? = some i ∧ i ≠ "" ∧ v'.type? = some t ∧ t ≠ "") ∧
      (normalizeKey k ≠ k →
        objGet (normalizeKey k) bs = some (storedRecord k rec)) := by
  obtain ⟨A, B, hsplit⟩ := List.append_of_mem hmem
  have hkB : ∀ kv ∈ B, kv.1 ≠ k := by
    intro kv hkv
    rw [hsplit] at hnd
    simp only [objKeys, List.map_append, List.map_cons] at hnd
    have h2 := ((List.nodup_append.mp hnd).2).1
    rw [List.nodup_cons] at h2
    intro heq
    exact h2.1 (heq ▸ List.mem_map.mpr ⟨kv, hkv, rfl⟩)
  have hBsolo : ∀ kv ∈ B, kv.1 ≠ k ∧ normalizeKey kv.1 ≠ k := by
    intro kv hkv
    have hmemes : kv ∈ es := by
      rw [hsplit]
      exact List.mem_append.mpr (Or.inr (List.mem_cons_of_mem _ hkv))
    refine ⟨hkB kv hkv, ?_⟩
    intro heq
    by_cases hkvk : kv.1 = k
    · exact hkB kv hkv hkvk
    · have hne := hsolo kv hmemes hkvk
      apply hne
      rw [heq]
      have h3 : normalizeKey k = k := by
        conv_lhs => rw [← heq]
        rw [normalizeKey_idem, heq]
      exact h3.symm
  refine ⟨sanitizeBlocks es, by rw [sanitizeRecordMap, hb], ?_, ?_, ?_⟩
  · rw [hsplit]
    exact objGet_sanitizeBlocks_last_writer hv hk (Or.inl rfl) hBsolo
  · rw [storedRecord_eq hk hv]
    obtain ⟨i, hi, hine⟩ := strFalsy_eq_false_iff.mp (id_processValue hk v)
    obtain ⟨t, ht, htne⟩ := strFalsy_eq_false_iff.mp (type_processValue k v)
    exact ⟨processValue k v, i, t, rfl, hi, hine, ht, htne⟩
  · intro hnk
    have hBdual : ∀ kv ∈ B, kv.1 ≠ normalizeKey k ∧
        normalizeKey kv.1 ≠ normalizeKey k := by
      intro kv hkv
      have hmemes : kv ∈ es := by
        rw [hsplit]
        exact List.mem_append.mpr (Or.inr (List.mem_cons_of_mem _ hkv))
      have hkvk : kv.1 ≠ k := hkB kv hkv
      have hne := hsolo kv hmemes hkvk
      constructor
      · intro heq
        apply hne
        rw [heq, normalizeKey_idem]
      · exact hne
    rw [hsplit]
    exact objGet_sanitizeBlocks_last_writer hv hk (Or.inr rfl) hBdual

theorem C1_no_data_loss_witness :
    ∃ bs, (sanitizeRecordMap c1MapW).block = some bs ∧
      objGet cDKey bs = some (storedRecord cDKey cRec0) ∧
      (∃ v' i t, (storedRecord cDKey cRec0).value = some v' ∧
        v'.id? = some i ∧ i ≠ "" ∧ v'.type? = some t ∧ t ≠ "") ∧
      (normalizeKey cDKey ≠ cDKey →
        objGet (normalizeKey cDKey) bs = some (storedRecord cDKey cRec0)) :=
  C1_no_data_loss c1MapW [(cDKey, cRec0)] rfl (by decide) cDKey cRec0
    ⟨cCore0, []⟩ (by decide) (by decide) rfl (by decide)

/-- C1 counterexample: two input keys sharing one canonical form (the
dashed and the undashed encoding).  The undashed-keyed record (id "u") has
a non-empty key and a present value, yet after sanitization its original
key holds the *other* record (id "d") and no output binding at all carries
a record with id "u": the record is dropped, contradicting the claim. -/
theorem C1_counterexample :
    c1Es.contains (cUKey, c1RecU) = true ∧ cUKey ≠ "" ∧
    c1RecU.value.isSome = true ∧
    objGet cUKey (sanitizeBlocks c1Es) = some (storedRecord cDKey c1RecD) ∧
    storedRecord cDKey c1RecD ≠ storedRecord cUKey c1RecU ∧
    ((sanitizeBlocks c1Es).all fun kv =>
      match kv.2.value with
      | some v => v.id? != some "u"
      | none => true) = true := by decide

/-- C10: when two distinct input keys share one canonical undashed form,
the canonical key's output binding carries the record of whichever entry
is processed later in iteration order (last write wins), discarding the
earlier record's binding under that key. -/
theorem C10_last_write_wins (r : RecordMap) (P S : List (String × BRecord))
    (k1 k2 c : String) (r1 r2 : BRecord) (v2 : BValue)
    (hb : r.block = some (P ++ (k2, r2) :: S))
    (hmem1 : (k1, r1) ∈ P) (hne : k1 ≠ k2)
    (hc1 : normalizeKey k1 = c) (hc2 : normalizeKey k2 = c)
    (hv2 : r2.value = some v2) (hk2 : k2 ≠ "")
    (hS : ∀ kv ∈ S, kv.1 ≠ c ∧ normalizeKey kv.1 ≠ c) :
    ∃ bs, (sanitizeRecordMap r).block = some bs ∧
      objGet c bs = some (storedRecord k2 r2) := by
  refine ⟨sanitizeBlocks (P ++ (k2, r2) :: S), by rw [sanitizeRecordMap, hb], ?_⟩
  exact objGet_sanitizeBlocks_last_writer hv2 hk2 (Or.inr hc2) hS

theorem C10_last_write_wins_witness :
    ∃ bs, (sanitizeRecordMap c10Map).block = some bs ∧
      objGet cUKey bs = some (storedRecord cDKey c1RecD) :=
  C10_last_write_wins c10Map [(cUKey, c1RecU)] [] cUKey cDKey cUKey c1RecU c1RecD
    ⟨{ cCore0 with id := some "d" }, []⟩ rfl (by decide) (by decide)
    (by decide) (by decide) rfl (by decide) (by decide)

/-! ### Machinery for the idempotence proof -/

theorem map_split {α : Type _} {f : α → α} {M A B : List α} {e : α}
    (h : M.map f = A ++ e :: B) :
    ∃ A0 e0 B0, M = A0 ++ e0 :: B0 ∧ A0.map f = A ∧ f e0 = e ∧ B0.map f = B := by
  induction A generalizing M with
  | nil =>
    cases M with
    | nil => simp at h
    | cons m M' =>
      simp only [List.map_cons, List.nil_append, List.cons.injEq] at h
      exact ⟨[], m, M', rfl, rfl, h.1, h.2⟩
  | cons a A' ih =>
    cases M with
    | nil => simp at h
    | cons m M' =>
      simp only [List.map_cons, List.cons_append, List.cons.injEq] at h
      obtain ⟨A0, e0, B0, h1, h2, h3, h4⟩ := ih h.2
      exact ⟨m :: A0, e0, B0, by simp [h1], by simp [h.1, h2], h3, h4⟩

theorem objSet_eq_map {α : Type _} {k : String} {m : List (String × α)}
    (hnd : (objKeys m).Nodup) (v : α) (hm : k ∈ objKeys m) :
    objSet k v m = m.map (fun kv => if kv.1 = k then (k, v) else kv) := by
  induction m with
  | nil => simp [objKeys] at hm
  | cons kv rest ih =>
    obtain ⟨k', v'⟩ := kv
    simp only [objKeys, List.map_cons, List.nodup_cons] at hnd
    by_cases h : k' = k
    · subst h
      have hrest : rest.map (fun kv => if kv.1 = k' then (k', v) else kv) = rest := by
        refine (List.map_congr_left ?_).trans (List.map_id rest)
        intro kv hkv
        have hne : kv.1 ≠ k' := by
          intro heq
          exact hnd.1 (heq ▸ List.mem_map.mpr ⟨kv, hkv, rfl⟩)
        simp [hne]
      simp only [objSet, if_pos rfl, List.map_cons, if_pos rfl, hrest]
      simp
    · simp only [objKeys, List.map_cons, List.mem_cons] at hm
      rcases hm with hm | hm
      · exact absurd hm.symm h
      · simp only [objSet, if_neg h, List.map_cons, if_neg h, List.cons.injEq, true_and]
        exact ih hnd.2 hm

theorem blocksInv_mono {seen seen' : List String} {M : List (String × BRecord)}
    (hsub : ∀ x ∈ seen, x ∈ seen') (h : BlocksInv seen M) : BlocksInv seen' M := by
  obtain ⟨h1, h2, h3, h4⟩ := h
  refine ⟨h1, h2, ?_, ?_⟩
  · intro A d rec B hs hn
    rcases h3 A d rec B hs hn with ⟨ha, hb⟩ | hB
    · exact Or.inl ⟨ha, hsub _ hb⟩
    · exact Or.inr hB
  · intro x hx
    rcases h4 x hx with h | ⟨k, hk, hnk⟩
    · exact Or.inl (hsub _ h)
    · exact Or.inr ⟨k, hsub _ hk, hnk⟩

theorem split_append_singleton {α : Type _} {M A B : List α} {y e : α}
    (h : M ++ [y] = A ++ e :: B) :
    (∃ B', M = A ++ e :: B' ∧ B = B' ++ [y]) ∨ (A = M ∧ e = y ∧ B = []) := by
  induction A generalizing M with
  | nil =>
    cases M with
    | nil =>
      simp only [List.nil_append] at h
      injection h with h1 h2
      exact Or.inr ⟨rfl, h1.symm, h2.symm⟩
    | cons m M' =>
      simp only [List.cons_append, List.nil_append] at h
      injection h with h1 h2
      refine Or.inl ⟨M', ?_, h2.symm⟩
      rw [h1]
      rfl
  | cons a A' ih =>
    cases M with
    | nil =>
      simp only [List.nil_append, List.cons_append] at h
      injection h with h1 h2
      exact absurd h2 (by simp)
    | cons m M' =>
      simp only [List.cons_append] at h
      injection h with h1 h2
      rcases ih h2 with ⟨B', hB1, hB2⟩ | ⟨h3, h4, h5⟩
      · refine Or.inl ⟨B', ?_, hB2⟩
        rw [h1, hB1]
        rfl
      · refine Or.inr ⟨?_, h4, h5⟩
        rw [h1, h3]

theorem split_append_two {α : Type _} {M A B : List α} {a b e : α}
    (h : M ++ [a, b] = A ++ e :: B) :
    (∃ B', M = A ++ e :: B' ∧ B = B' ++ [a, b]) ∨
    (A = M ∧ e = a ∧ B = [b]) ∨ (A = M ++ [a] ∧ e = b ∧ B = []) := by
  have h2 : (M ++ [a]) ++ [b] = A ++ e :: B := by
    rw [← h]
    simp
  rcases split_append_singleton h2 with ⟨B', hB1, hB2⟩ | ⟨h3, h4, h5⟩
  · rcases split_append_singleton hB1 with ⟨B'', hC1, hC2⟩ | ⟨h6, h7, h8⟩
    · refine Or.inl ⟨B'', hC1, ?_⟩
      rw [hB2, hC2]
      simp
    · refine Or.inr (Or.inl ⟨h6, h7, ?_⟩)
      rw [hB2, h8]
      rfl
  · exact Or.inr (Or.inr ⟨h3, h4, h5⟩)

theorem dualsOK_append_canonical {seen : List String} {M : List (String × BRecord)}
    {y : String × BRecord} (hdual : DualsOK seen M) (hy : normalizeKey y.1 = y.1) :
    DualsOK seen (M ++ [y]) := by
  intro A d rec B hs hn
  rcases split_append_singleton hs with ⟨B', hB1, hB2⟩ | ⟨h3, h4, h5⟩
  · rcases hdual A d rec B' hB1 hn with ⟨ha, hb⟩ | ⟨rx, B'', hB''⟩
    · exact Or.inl ⟨ha, hb⟩
    · exact Or.inr ⟨rx, B'' ++ [y], by rw [hB2, hB'']; rfl⟩
  · exfalso
    apply hn
    have hd : d = y.1 := congrArg Prod.fst h4
    rw [hd, hy]

theorem dualsOK_update {seen : List String} {M : List (String × BRecord)}
    {c0 : String} {r2 : BRecord} (hnd : (objKeys M).Nodup) (hdual : DualsOK seen M)
    (hc0 : normalizeKey c0 = c0) (hmem : c0 ∈ objKeys M)
    (hrefB : ∀ A d rec B, M = A ++ (d, rec) :: B → normalizeKey d ≠ d →
      normalizeKey d = c0 → ∃ rx B', B = (c0, rx) :: B') :
    DualsOK seen (objSet c0 r2 M) := by
  rw [objSet_eq_map hnd r2 hmem]
  intro A d rec B hs hn
  obtain ⟨A0, e0, B0, hM, hA, he, hB⟩ := map_split hs
  by_cases hkey : e0.1 = c0
  · exfalso
    apply hn
    have h5 : ((c0, r2) : String × BRecord) = (d, rec) := by
      rw [← he]
      simp [hkey]
    have hd : c0 = d := congrArg Prod.fst h5
    rw [← hd, hc0]
  · have he0 : e0 = (d, rec) := by
      rw [← he]
      simp [hkey]
    rw [he0] at hM
    by_cases hdc : normalizeKey d = c0
    · obtain ⟨rx, B0', hB0⟩ := hrefB A0 d rec B0 hM hn hdc
      refine Or.inr ⟨r2, B0'.map fun kv => if kv.1 = c0 then (c0, r2) else kv, ?_⟩
      rw [← hB, hB0]
      simp [hdc]
    · rcases hdual A0 d rec B0 hM hn with ⟨ha, hb⟩ | ⟨rx, B0', hB0⟩
      · refine Or.inl ⟨?_, hb⟩
        rw [← hA]
        refine List.mem_map.mpr ⟨(normalizeKey d, rec), ha, ?_⟩
        simp [hdc]
      · refine Or.inr ⟨rx, B0'.map fun kv => if kv.1 = c0 then (c0, r2) else kv, ?_⟩
        rw [← hB, hB0]
        simp only [List.map_cons]
        congr 1
        simp [hdc]

theorem objKeys_append {α : Type _} (A B : List (String × α)) :
    objKeys (A ++ B) = objKeys A ++ objKeys B :=
  List.map_append _ _ _

theorem dualsOK_append_optionA {seen : List String} {M : List (String × BRecord)}
    {y : String × BRecord} (hdual : DualsOK seen M)
    (hmem : (normalizeKey y.1, y.2) ∈ M) (hseen : normalizeKey y.1 ∈ seen) :
    DualsOK seen (M ++ [y]) := by
  intro A d rec B hs hn
  rcases split_append_singleton hs with ⟨B', hB1, hB2⟩ | ⟨h3, h4, h5⟩
  · rcases hdual A d rec B' hB1 hn with ⟨ha, hb⟩ | ⟨rx, B'', hB''⟩
    · exact Or.inl ⟨ha, hb⟩
    · exact Or.inr ⟨rx, B'' ++ [y], by rw [hB2, hB'']; rfl⟩
  · subst h3
    have hd : d = y.1 := congrArg Prod.fst h4
    have hrec : rec = y.2 := congrArg Prod.snd h4
    subst hd
    subst hrec
    exact Or.inl ⟨hmem, hseen⟩

theorem dualsOK_append_dashed_pair {seen : List String} {M : List (String × BRecord)}
    {k : String} {r2 : BRecord} (hdual : DualsOK seen M)
    (hcc : normalizeKey (normalizeKey k) = normalizeKey k) :
    DualsOK seen (M ++ [(k, r2), (normalizeKey k, r2)]) := by
  intro A d rec B hs hn
  rcases split_append_two hs with ⟨B', h1, h2⟩ | ⟨h1, h2, h3⟩ | ⟨h1, h2, h3⟩
  · rcases hdual A d rec B' h1 hn with ⟨ha, hb⟩ | ⟨rx, B'', hB''⟩
    · exact Or.inl ⟨ha, hb⟩
    · refine Or.inr ⟨rx, B'' ++ [(k, r2), (normalizeKey k, r2)], ?_⟩
      rw [h2, hB'']
      rfl
  · have hd : d = k := congrArg Prod.fst h2
    subst hd
    exact Or.inr ⟨r2, [], by rw [h3]⟩
  · exfalso
    apply hn
    have hd : d = normalizeKey k := congrArg Prod.fst h2
    rw [hd, hcc]

theorem nodup_keys_append_singleton {M : List (String × BRecord)} {k : String}
    {r : BRecord} (hnd : (objKeys M).Nodup) (hk : k ∉ objKeys M) :
    (objKeys (M ++ [(k, r)])).Nodup := by
  simp only [objKeys, List.map_append, List.map_cons, List.map_nil]
  rw [List.nodup_append]
  exact ⟨hnd, List.nodup_singleton k, fun x hx => by
    simp only [List.mem_singleton]
    intro hxk
    exact hk (hxk ▸ hx)⟩

/-- The induction step: processing one input entry preserves the output
invariant, the new key being appended to the seen set. -/
theorem blocksInv_step {seen : List String} {M : List (String × BRecord)}
    (hinv : BlocksInv seen M) (k : String) (rec : BRecord)
    (hk_not : k ∉ seen)
    (hnest : ∀ v, rec.value = some v → v.nested.tail = []) :
    BlocksInv (seen ++ [k]) (sanitizeBlockStep M (k, rec)) := by
  obtain ⟨hnd, hst, hdual, hprov⟩ := hinv
  have hmono : BlocksInv (seen ++ [k]) M :=
    blocksInv_mono (fun x hx => List.mem_append.mpr (Or.inl hx)) ⟨hnd, hst, hdual, hprov⟩
  cases hv : rec.value with
  | none =>
    rw [sanitizeBlockStep_none hv]
    exact hmono
  | some v =>
    by_cases hke : k = ""
    · rw [sanitizeBlockStep_emptyKey hke]
      exact hmono
    · obtain ⟨hnd', hst', hdual', hprov'⟩ := hmono
      have hr2st : ∀ k', k' ≠ "" → StableEntry (k', storedRecord k rec) :=
        fun k' hk' => stable_storedRecord hke hk' hv (hnest v hv)
      have hkseen : k ∈ seen ++ [k] := List.mem_append.mpr (Or.inr (List.mem_singleton.mpr rfl))
      by_cases hnk : normalizeKey k = k
      · rw [sanitizeBlockStep_fixed hv hke hnk]
        by_cases hkM : k ∈ objKeys M
        · refine ⟨?_, ?_, ?_, ?_⟩
          · rw [objKeys_objSet_of_mem hkM]
            exact hnd
          · intro kv hkv
            rcases mem_of_mem_objSet hkv with h | h
            · rw [h]
              exact hr2st k hke
            · exact hst kv h
          · refine dualsOK_update hnd hdual' hnk hkM ?_
            intro A d rec' B hs hn hdc
            rcases hdual A d rec' B hs hn with ⟨_, hb⟩ | ⟨rx, B', hB'⟩
            · exact absurd (hdc ▸ hb) hk_not
            · exact ⟨rx, B', by rw [hB', hdc]⟩
          · intro x hx
            rw [objKeys_objSet_of_mem hkM] at hx
            exact hprov' x hx
        · rw [objSet_not_mem hkM]
          refine ⟨nodup_keys_append_singleton hnd hkM, ?_, ?_, ?_⟩
          · intro kv hkv
            rcases List.mem_append.mp hkv with h | h
            · exact hst kv h
            · rw [List.mem_singleton.mp h]
              exact hr2st k hke
          · exact dualsOK_append_canonical hdual' hnk
          · intro x hx
            simp only [objKeys, List.map_append, List.map_cons, List.map_nil,
              List.mem_append, List.mem_singleton] at hx
            rcases hx with hx | hx
            · exact hprov' x hx
            · exact Or.inl (hx ▸ hkseen)
      · rw [sanitizeBlockStep_dashed hv hke hnk]
        have hkM : k ∉ objKeys M := by
          intro hk
          rcases hprov k hk with h | ⟨k0, _, hnk0⟩
          · exact hk_not h
          · apply hnk
            conv_lhs => rw [← hnk0, normalizeKey_idem, hnk0]
        have hcc : normalizeKey (normalizeKey k) = normalizeKey k := normalizeKey_idem k
        have hcne : normalizeKey k ≠ "" := normalizeKey_ne_empty hke
        have hck : normalizeKey k ≠ k := hnk
        rw [objSet_not_mem hkM]
        by_cases hcM : normalizeKey k ∈ objKeys M
        · have hcseen : normalizeKey k ∈ seen := by
            rcases hprov _ hcM with h | ⟨k0, hk0, hnk0⟩
            · exact h
            · by_cases hk0f : normalizeKey k0 = k0
              · rw [← hnk0, hk0f]
                exact hk0
              · have hkk : k0 = k := normalizeKey_inj hk0f hnk hnk0
                exact absurd (hkk ▸ hk0) hk_not
          rw [objSet_append_of_mem hcM]
          refine ⟨?_, ?_, ?_, ?_⟩
          · refine nodup_keys_append_singleton ?_ ?_
            · rw [objKeys_objSet_of_mem hcM]
              exact hnd
            · rw [objKeys_objSet_of_mem hcM]
              exact hkM
          · intro kv hkv
            rcases List.mem_append.mp hkv with h | h
            · rcases mem_of_mem_objSet h with h2 | h2
              · rw [h2]
                exact hr2st _ hcne
              · exact hst kv h2
            · rw [List.mem_singleton.mp h]
              exact hr2st k hke
          · refine dualsOK_append_optionA ?_ ?_ ?_
            · refine dualsOK_update hnd hdual' hcc hcM ?_
              intro A d rec' B hs hn hdc
              exfalso
              have hdk : d = k := normalizeKey_inj hn hnk hdc
              have hdmem : d ∈ objKeys M := by
                rw [hs, objKeys_append]
                refine List.mem_append.mpr (Or.inr ?_)
                simp [objKeys]
              rw [hdk] at hdmem
              exact hkM hdmem
            · exact mem_objSet_self _ _ _
            · exact List.mem_append.mpr (Or.inl hcseen)
          · intro x hx
            rw [objKeys_append, objKeys_objSet_of_mem hcM] at hx
            rcases List.mem_append.mp hx with hx | hx
            · exact hprov' x hx
            · simp only [objKeys, List.map_cons, List.map_nil, List.mem_singleton] at hx
              exact Or.inl (hx ▸ hkseen)
        · have hcM1 : normalizeKey k ∉ objKeys (M ++ [(k, storedRecord k rec)]) := by
            rw [objKeys_append]
            intro hx
            rcases List.mem_append.mp hx with hx | hx
            · exact hcM hx
            · simp only [objKeys, List.map_cons, List.map_nil, List.mem_singleton] at hx
              exact hck hx
          rw [objSet_not_mem hcM1]
          refine ⟨?_, ?_, ?_, ?_⟩
          · exact nodup_keys_append_singleton (nodup_keys_append_singleton hnd hkM) hcM1
          · intro kv hkv
            rcases List.mem_append.mp hkv with h | h
            · rcases List.mem_append.mp h with h2 | h2
              · exact hst kv h2
              · rw [List.mem_singleton.mp h2]
                exact hr2st k hke
            · rw [List.mem_singleton.mp h]
              exact hr2st _ hcne
          · have hd := @dualsOK_append_dashed_pair (seen ++ [k]) M k
              (storedRecord k rec) hdual' hcc
            intro A d rec' B hs hn
            refine hd A d rec' B ?_ hn
            rw [← hs]
            simp
          · intro x hx
            rw [objKeys_append, objKeys_append] at hx
            rcases List.mem_append.mp hx with hx | hx
            · rcases List.mem_append.mp hx with hx2 | hx2
              · exact hprov' x hx2
              · simp only [objKeys, List.map_cons, List.map_nil, List.mem_singleton] at hx2
                exact Or.inl (hx2 ▸ hkseen)
            · simp only [objKeys, List.map_cons, List.map_nil, List.mem_singleton] at hx
              exact Or.inr ⟨k, hkseen, hx.symm⟩

theorem nodup_middle_facts {M1 M2 : List (String × BRecord)} {d : String} {rec : BRecord}
    (hnd : (objKeys (M1 ++ (d, rec) :: M2)).Nodup) :
    d ∉ objKeys M1 ∧ d ∉ objKeys M2 := by
  rw [objKeys_append] at hnd
  have h := List.nodup_append.mp hnd
  constructor
  · intro hx
    exact (h.2.2 hx) (List.mem_cons_self _ _)
  · intro hx
    rw [show objKeys ((d, rec) :: M2) = d :: objKeys M2 from rfl] at h
    exact (List.nodup_cons.mp h.2.1).1 hx

theorem nodup_left_of_append {M1 M2 : List (String × BRecord)}
    (hnd : (objKeys (M1 ++ M2)).Nodup) : (objKeys M1).Nodup := by
  rw [objKeys_append] at hnd
  exact (List.nodup_append.mp hnd).1

theorem blocksInv_foldl (es : List (String × BRecord)) :
    ∀ (seen : List String) (M : List (String × BRecord)),
    BlocksInv seen M →
    (∀ kv ∈ es, kv.1 ∉ seen) →
    (objKeys es).Nodup →
    (∀ kv ∈ es, ∀ v, kv.2.value = some v → v.nested.tail = []) →
    ∃ seen', BlocksInv seen' (es.foldl sanitizeBlockStep M) := by
  induction es with
  | nil => exact fun seen M hinv _ _ _ => ⟨seen, hinv⟩
  | cons kv rest ih =>
    intro seen M hinv hfresh hnd hnest
    rw [List.foldl_cons]
    obtain ⟨k, rec⟩ := kv
    have hstep := blocksInv_step hinv k rec (hfresh (k, rec) (List.mem_cons_self _ _))
      (fun v hv => hnest (k, rec) (List.mem_cons_self _ _) v hv)
    refine ih (seen ++ [k]) _ hstep ?_ ?_ ?_
    · intro kv' hkv'
      intro hmem
      rcases List.mem_append.mp hmem with h | h
      · exact hfresh kv' (List.mem_cons_of_mem _ hkv') h
      · have heq : kv'.1 = k := List.mem_singleton.mp h
        simp only [objKeys, List.map_cons, List.nodup_cons] at hnd
        exact hnd.1 (heq ▸ List.mem_map.mpr ⟨kv', hkv', rfl⟩)
    · simp only [objKeys, List.map_cons, List.nodup_cons] at hnd
      exact hnd.2
    · exact fun kv' hkv' => hnest kv' (List.mem_cons_of_mem _ hkv')

theorem blocksInv_nil : BlocksInv [] [] := by
  refine ⟨List.nodup_nil, ?_, ?_, ?_⟩
  · intro kv h
    simp at h
  · intro A d rec B hs hn
    exact absurd hs (by simp)
  · intro x hx
    simp [objKeys] at hx

/-- The preservation result: the sanitized block table is unique-keyed, all
of its records are stable, and its dashed entries satisfy the positional
dual discipline. -/
theorem sanitizeBlocks_invariants {es : List (String × BRecord)}
    (hnd : (objKeys es).Nodup)
    (hnest : ∀ kv ∈ es, ∀ v, kv.2.value = some v → v.nested.tail = []) :
    ∃ seen, BlocksInv seen (sanitizeBlocks es) :=
  blocksInv_foldl es [] [] blocksInv_nil (by simp) hnd hnest

/-- Replaying the block loop over an already-sanitized table rebuilds it
unchanged. -/
theorem replay_aux (n : Nat) : ∀ (M1 M2 : List (String × BRecord)),
    M2.length ≤ n →
    (objKeys (M1 ++ M2)).Nodup →
    (∀ kv ∈ M2, StableEntry kv) →
    (∀ A d rec B, M1 ++ M2 = A ++ (d, rec) :: B → normalizeKey d ≠ d →
      ((normalizeKey d, rec) ∈ A) ∨ ∃ rx B', B = (normalizeKey d, rx) :: B') →
    M2.foldl sanitizeBlockStep M1 = M1 ++ M2 := by
  induction n with
  | zero =>
    intro M1 M2 hlen _ _ _
    rw [List.length_eq_zero.mp (Nat.le_zero.mp hlen)]
    simp
  | succ n ih =>
    intro M1 M2 hlen hnd hst hdual
    cases M2 with
    | nil => simp
    | cons hd M2' =>
      obtain ⟨d, rec⟩ := hd
      have hstab : StableEntry (d, rec) := hst _ (List.mem_cons_self _ _)
      obtain ⟨hdne, v, hv, hflat, hid, hty⟩ := hstab
      have hstored : storedRecord d rec = rec :=
        storedRecord_of_stable ⟨hdne, v, hv, hflat, hid, hty⟩
      obtain ⟨hdM1, hdM2⟩ := nodup_middle_facts hnd
      by_cases hnk : normalizeKey d = d
      · rw [List.foldl_cons, sanitizeBlockStep_fixed hv hdne hnk, hstored,
          objSet_not_mem hdM1]
        have hassoc : (M1 ++ [(d, rec)]) ++ M2' = M1 ++ (d, rec) :: M2' := by simp
        rw [ih (M1 ++ [(d, rec)]) M2' (by simpa using Nat.le_of_succ_le_succ hlen)
          (by rw [hassoc]; exact hnd)
          (fun kv h => hst kv (List.mem_cons_of_mem _ h))
          (fun A d' rec' B hs hn => hdual A d' rec' B (by rw [← hs, hassoc]) hn)]
        exact hassoc
      · rw [List.foldl_cons, sanitizeBlockStep_dashed hv hdne hnk, hstored,
          objSet_not_mem hdM1]
        rcases hdual M1 d rec M2' rfl hnk with hmemA | ⟨rx, M2'', hM2'⟩
        · have hcK : normalizeKey d ∈ objKeys M1 :=
            List.mem_map.mpr ⟨(normalizeKey d, rec), hmemA, rfl⟩
          rw [objSet_append_of_mem hcK,
            objSet_of_mem_nodup hmemA (nodup_left_of_append hnd)]
          have hassoc : (M1 ++ [(d, rec)]) ++ M2' = M1 ++ (d, rec) :: M2' := by simp
          rw [ih (M1 ++ [(d, rec)]) M2' (by simpa using Nat.le_of_succ_le_succ hlen)
            (by rw [hassoc]; exact hnd)
            (fun kv h => hst kv (List.mem_cons_of_mem _ h))
            (fun A d' rec' B hs hn => hdual A d' rec' B (by rw [← hs, hassoc]) hn)]
          exact hassoc
        · subst hM2'
          have hcM1 : normalizeKey d ∉ objKeys M1 := by
            rw [objKeys_append] at hnd
            have h := List.nodup_append.mp hnd
            intro hx
            refine (h.2.2 hx) ?_
            simp [objKeys]
          have hcfresh : normalizeKey d ∉ objKeys (M1 ++ [(d, rec)]) := by
            rw [objKeys_append]
            intro hx
            rcases List.mem_append.mp hx with hx | hx
            · exact hcM1 hx
            · simp only [objKeys, List.map_cons, List.map_nil, List.mem_singleton] at hx
              exact hnk hx
          rw [objSet_not_mem hcfresh]
          rw [List.foldl_cons]
          have hstab2 : StableEntry (normalizeKey d, rx) :=
            hst _ (List.mem_cons_of_mem _ (List.mem_cons_self _ _))
          obtain ⟨hcne, vx, hvx, hflatx, hidx, htyx⟩ := hstab2
          have hstored2 : storedRecord (normalizeKey d) rx = rx :=
            storedRecord_of_stable ⟨hcne, vx, hvx, hflatx, hidx, htyx⟩
          rw [sanitizeBlockStep_fixed hvx hcne (normalizeKey_idem d), hstored2]
          rw [objSet_split hcfresh]
          have hassoc2 : ((M1 ++ [(d, rec)]) ++ [(normalizeKey d, rx)]) ++ M2'' =
              M1 ++ (d, rec) :: (normalizeKey d, rx) :: M2'' := by simp
          rw [ih ((M1 ++ [(d, rec)]) ++ [(normalizeKey d, rx)]) M2''
            (by simp only [List.length_cons] at hlen; omega)
            (by rw [hassoc2]; exact hnd)
            (fun kv h => hst kv (List.mem_cons_of_mem _ (List.mem_cons_of_mem _ h)))
            (fun A d' rec' B hs hn => hdual A d' rec' B (by rw [← hs, hassoc2]) hn)]
          exact hassoc2

theorem record_eta {rec : BRecord} {v : BValue} (hv : rec.value = some v) :
    { rec with value := some v } = rec := by
  obtain ⟨role, value⟩ := rec
  simp only at hv
  simp [hv]

theorem sanitizeBlocks_idem {es : List (String × BRecord)}
    (hnd : (objKeys es).Nodup)
    (hnest : ∀ kv ∈ es, ∀ v, kv.2.value = some v → v.nested.tail = []) :
    sanitizeBlocks (sanitizeBlocks es) = sanitizeBlocks es := by
  obtain ⟨seen, hnd', hst', hdual', _⟩ := sanitizeBlocks_invariants hnd hnest
  have h := replay_aux (sanitizeBlocks es).length [] (sanitizeBlocks es) le_rfl
    (by simpa using hnd') hst'
    (fun A d rec B hs hn =>
      (hdual' A d rec B (by simpa using hs) hn).elim
        (fun h2 => Or.inl h2.1) Or.inr)
  rw [sanitizeBlocks] at *
  simpa using h

theorem mem_foldl_sanitizeCollectionStep {cs acc : List (String × BRecord)}
    {kv : String × BRecord} (h : kv ∈ cs.foldl sanitizeCollectionStep acc) :
    kv ∈ acc ∨ ∃ k rec v, (k, rec) ∈ cs ∧ rec.value = some v ∧
      kv = (k, { rec with value := some (flattenValue v) }) := by
  induction cs generalizing acc with
  | nil => exact Or.inl h
  | cons kv0 rest ih =>
    rw [List.foldl_cons] at h
    rcases ih h with h | h
    · obtain ⟨k0, rec0⟩ := kv0
      cases hv : rec0.value with
      | none =>
        rw [sanitizeCollectionStep, hv] at h
        exact Or.inl h
      | some v0 =>
        rw [sanitizeCollectionStep, hv] at h
        rcases mem_of_mem_objSet h with h | h
        · exact Or.inr ⟨k0, rec0, v0, List.mem_cons_self _ _, hv, h⟩
        · exact Or.inl h
    · obtain ⟨k0, rec0, v0, hmem, hrest⟩ := h
      exact Or.inr ⟨k0, rec0, v0, List.mem_cons_of_mem _ hmem, hrest⟩

theorem nodup_foldl_sanitizeCollectionStep {cs acc : List (String × BRecord)}
    (h : (objKeys acc).Nodup) :
    (objKeys (cs.foldl sanitizeCollectionStep acc)).Nodup := by
  induction cs generalizing acc with
  | nil => exact h
  | cons kv0 rest ih =>
    rw [List.foldl_cons]
    refine ih ?_
    obtain ⟨k0, rec0⟩ := kv0
    cases hv : rec0.value with
    | none =>
      rw [sanitizeCollectionStep, hv]
      exact h
    | some v0 =>
      rw [sanitizeCollectionStep, hv]
      exact nodup_objKeys_objSet _ _ h

theorem sanitizeCollections_rebuild {M : List (String × BRecord)}
    (hnd : (objKeys M).Nodup)
    (hflat : ∀ kv ∈ M, ∃ v, kv.2.value = some v ∧ v.nested = []) :
    sanitizeCollections M = M := by
  have aux : ∀ (M2 M1 : List (String × BRecord)),
      (objKeys (M1 ++ M2)).Nodup →
      (∀ kv ∈ M2, ∃ v, kv.2.value = some v ∧ v.nested = []) →
      M2.foldl sanitizeCollectionStep M1 = M1 ++ M2 := by
    intro M2
    induction M2 with
    | nil =>
      intro M1 _ _
      simp
    | cons kv0 rest ih =>
      intro M1 hnd2 hflat2
      obtain ⟨k0, rec0⟩ := kv0
      obtain ⟨v0, hv0, hfl⟩ := hflat2 _ (List.mem_cons_self _ _)
      have hstep : sanitizeCollectionStep M1 (k0, rec0) = objSet k0 rec0 M1 := by
        rw [sanitizeCollectionStep, hv0]
        show objSet k0 { rec0 with value := some (flattenValue v0) } M1 = objSet k0 rec0 M1
        rw [flattenValue_of_flat hfl, record_eta hv0]
      rw [List.foldl_cons, hstep, objSet_not_mem (nodup_middle_facts hnd2).1]
      have hassoc : (M1 ++ [(k0, rec0)]) ++ rest = M1 ++ (k0, rec0) :: rest := by simp
      rw [ih (M1 ++ [(k0, rec0)]) (by rw [hassoc]; exact hnd2)
        (fun kv h => hflat2 kv (List.mem_cons_of_mem _ h))]
      exact hassoc
  have h := aux M [] (by simpa using hnd) hflat
  rw [sanitizeCollections]
  simpa using h

/-- C2 (amended): `sanitizeRecordMap` is idempotent on record maps that
conform to the data model: block keys are distinct (as JavaScript object
keys are) and every block or collection value is at most singly wrapped
(a `value` wrapper holds a Block, which itself has no `value` field).  A
doubly-wrapped value is flattened by one level per pass, so a second pass
changes it again; see the counterexample. -/
theorem C2_idempotent (r : RecordMap)
    (hbu : ∀ es, r.block = some es →
      (objKeys es).Nodup ∧ ∀ kv ∈ es, recAtMostSingle kv.2 = true)
    (hcu : ∀ cs, r.collection = some cs → ∀ kv ∈ cs, recAtMostSingle kv.2 = true) :
    sanitizeRecordMap (sanitizeRecordMap r) = sanitizeRecordMap r := by
  cases hb : r.block with
  | none =>
    have h : sanitizeRecordMap r = r := by
      rw [sanitizeRecordMap, hb]
    rw [h, h]
  | some es =>
    obtain ⟨hnd, hsingle⟩ := hbu es hb
    have hnest : ∀ kv ∈ es, ∀ v, kv.2.value = some v → v.nested.tail = [] := by
      intro kv hkv v hv
      have h2 := hsingle kv hkv
      rw [recAtMostSingle, hv] at h2
      exact List.isEmpty_iff.mp h2
    have h1 : sanitizeRecordMap r =
        { r with
          block := some (sanitizeBlocks es)
          collection := some (sanitizeCollections ((r.collection).getD [])) } := by
      rw [sanitizeRecordMap, hb]
    have hcolflat : ∀ kv ∈ sanitizeCollections ((r.collection).getD []),
        ∃ v, kv.2.value = some v ∧ v.nested = [] := by
      intro kv hkv
      rcases mem_foldl_sanitizeCollectionStep hkv with h | ⟨k0, rec0, v0, hmem, hv0, heq⟩
      · simp at h
      · refine ⟨flattenValue v0, by rw [heq], ?_⟩
        rw [nested_flattenValue]
        cases hc : r.collection with
        | none =>
          rw [hc] at hmem
          simp at hmem
        | some cs =>
          rw [hc] at hmem
          have h2 := hcu cs hc (k0, rec0) (by simpa using hmem)
          rw [recAtMostSingle] at h2
          simp only at h2
          rw [hv0] at h2
          exact List.isEmpty_iff.mp h2
    rw [h1]
    have h2 : sanitizeRecordMap
        { r with
          block := some (sanitizeBlocks es)
          collection := some (sanitizeCollections ((r.collection).getD [])) } =
        { r with
          block := some (sanitizeBlocks (sanitizeBlocks es))
          collection := some (sanitizeCollections (sanitizeCollections
            ((r.collection).getD []))) } := by
      simp [sanitizeRecordMap]
    have hcnodup : (objKeys (sanitizeCollections ((r.collection).getD []))).Nodup := by
      rw [sanitizeCollections]
      exact nodup_foldl_sanitizeCollectionStep List.nodup_nil
    rw [h2, sanitizeBlocks_idem hnd hnest, sanitizeCollections_rebuild hcnodup hcolflat]

theorem C2_idempotent_witness :
    sanitizeRecordMap (sanitizeRecordMap c2Map) = sanitizeRecordMap c2Map :=
  C2_idempotent c2Map
    (fun es h => by
      injection h with h
      subst h
      exact ⟨by decide, by decide⟩)
    (fun cs h => by
      injection h with h
      subst h
      decide)

/-- C2 counterexample: a doubly-wrapped block value (`value.value.value`
present).  The first pass removes one wrapper level and backfills id and
type on the still-wrapped object; the second pass flattens again, merging
the inner object over the backfilled fields, so the results differ. -/
theorem C2_counterexample :
    sanitizeRecordMap (sanitizeRecordMap c2DoubleMap) ≠ sanitizeRecordMap c2DoubleMap := by
  decide

theorem nodup_key_unique {α : Type _} {M : List (String × α)}
    (hnd : (objKeys M).Nodup) {k : String} {v v' : α}
    (h1 : (k, v) ∈ M) (h2 : (k, v') ∈ M) : v = v' := by
  induction M with
  | nil => simp at h1
  | cons kv rest ih =>
    simp only [objKeys, List.map_cons, List.nodup_cons] at hnd
    rcases List.mem_cons.mp h1 with h1 | h1 <;> rcases List.mem_cons.mp h2 with h2 | h2
    · exact congrArg Prod.snd (h1.trans h2.symm)
    · exfalso
      apply hnd.1
      have : kv.1 = k := by rw [← h1]
      rw [this]
      exact List.mem_map.mpr ⟨(k, v'), h2, rfl⟩
    · exfalso
      apply hnd.1
      have : kv.1 = k := by rw [← h2]
      rw [this]
      exact List.mem_map.mpr ⟨(k, v), h1, rfl⟩
    · exact ih hnd.2 h1 h2

theorem inPlaceRecord_of_sanitized {k : String} {rec : BRecord}
    (h : recSanitized rec = true) : inPlaceRecord k rec = rec := by
  cases hv : rec.value with
  | none => rw [inPlaceRecord, hv]
  | some v =>
    rw [recSanitized, hv] at h
    simp only [Bool.and_eq_true, Bool.not_eq_true'] at h
    obtain ⟨⟨hfl, hid⟩, hty⟩ := h
    have hproc : processRecord k rec = rec := by
      rw [processRecord, hv]
      show { rec with value := some (processValue k v) } = rec
      rw [processValue_of_sanitized (List.isEmpty_iff.mp hfl) hid hty, record_eta hv]
    rw [inPlaceRecord, hv]
    show (if k ≠ "" then finalIdFix k (processRecord k rec) else processRecord k rec) = rec
    rw [hproc]
    split
    · exact finalIdFix_of_id_present hv hid
    · rfl

theorem inPlaceCollectionRecord_of_flat {rec : BRecord}
    (h : recFlat rec = true) : inPlaceCollectionRecord rec = rec := by
  cases hv : rec.value with
  | none => rw [inPlaceCollectionRecord, hv]
  | some v =>
    rw [recFlat, hv] at h
    have h2 : v.nested.isEmpty = true := h
    rw [inPlaceCollectionRecord, hv]
    show { rec with value := some (flattenValue v) } = rec
    rw [flattenValue_of_flat (List.isEmpty_iff.mp h2), record_eta hv]

/-- C8 (amended): `sanitizeRecordMap` builds fresh top-level tables but
sanitizes the record values of its *input* in place; the input is left
unchanged precisely on records that need no repair: when every valued
block record is already flat with non-falsy id and type, and every valued
collection record is already flat, the input survives the call intact. -/
theorem C8_in_place_mutation (r : RecordMap)
    (hb : ∀ es, r.block = some es → ∀ kv ∈ es, recSanitized kv.2 = true)
    (hc : ∀ cs, r.collection = some cs → ∀ kv ∈ cs, recFlat kv.2 = true) :
    inputAfterSanitize r = r := by
  obtain ⟨b, c, sp⟩ := r
  cases b with
  | none => rfl
  | some es =>
    simp only [inputAfterSanitize]
    have hes : es.map (fun kv => (kv.1, inPlaceRecord kv.1 kv.2)) = es := by
      refine (List.map_congr_left ?_).trans (List.map_id es)
      intro kv hkv
      rw [inPlaceRecord_of_sanitized (hb es rfl kv hkv)]
      exact rfl
    rw [hes]
    cases c with
    | none => rfl
    | some cs =>
      have hcs : cs.map (fun kv => (kv.1, inPlaceCollectionRecord kv.2)) = cs := by
        refine (List.map_congr_left ?_).trans (List.map_id cs)
        intro kv hkv
        rw [inPlaceCollectionRecord_of_flat (hc cs rfl kv hkv)]
        exact rfl
      simp only [Option.map_some']
      rw [hcs]

theorem C8_in_place_mutation_witness :
    inputAfterSanitize c8SafeMap = c8SafeMap :=
  C8_in_place_mutation c8SafeMap
    (fun es h => by
      injection h with h
      subst h
      decide)
    (fun cs h => by
      injection h with h
      subst h
      decide)

/-- C8 counterexample: a block record lacking an id is mutated in place
(id backfill and type inference run on the input's value object), so the
input record map is not left unchanged by the call. -/
theorem C8_counterexample : inputAfterSanitize c8Map ≠ c8Map := by decide

theorem objGet_sanitizeCollectionStep_other {out : List (String × BRecord)}
    {kv : String × BRecord} {c : String} (h : kv.1 ≠ c) :
    objGet c (sanitizeCollectionStep out kv) = objGet c out := by
  obtain ⟨k, rec⟩ := kv
  cases hv : rec.value with
  | none => rw [sanitizeCollectionStep, hv]
  | some v =>
    rw [sanitizeCollectionStep, hv]
    exact objGet_objSet_ne h _ _

theorem objGet_col_foldl_no_writes {L out : List (String × BRecord)} {c : String}
    (h : ∀ kv ∈ L, kv.1 ≠ c) :
    objGet c (L.foldl sanitizeCollectionStep out) = objGet c out := by
  induction L generalizing out with
  | nil => rfl
  | cons kv rest ih =>
    rw [List.foldl_cons, ih (fun kv' h' => h kv' (List.mem_cons_of_mem _ h'))]
    exact objGet_sanitizeCollectionStep_other (h kv (List.mem_cons_self _ _))

theorem objGet_sanitizeCollections_writer {A B : List (String × BRecord)}
    {k : String} {rec : BRecord} {v : BValue} (hv : rec.value = some v)
    (hB : ∀ kv ∈ B, kv.1 ≠ k) :
    objGet k (sanitizeCollections (A ++ (k, rec) :: B)) =
      some { rec with value := some (flattenValue v) } := by
  rw [sanitizeCollections, List.foldl_append, List.foldl_cons,
    objGet_col_foldl_no_writes hB]
  rw [sanitizeCollectionStep, hv]
  exact objGet_objSet_self _ _ _

/-- C9: every collection record without a value is omitted from the
output; every valued one appears under its original key only, with the
wrapper flattening applied, and with no type inference, dual-keying, or id
backfill (the output value is exactly the flattened input value). -/
theorem C9_collections (r : RecordMap) (es cs : List (String × BRecord))
    (hb : r.block = some es) (hc : r.collection = some cs)
    (hnd : (objKeys cs).Nodup) :
    ∃ out, (sanitizeRecordMap r).collection = some out ∧
      (∀ kv ∈ cs, kv.2.value = none → objGet kv.1 out = none) ∧
      (∀ k rec v, (k, rec) ∈ cs → rec.value = some v →
        objGet k out = some { rec with value := some (flattenValue v) }) ∧
      (∀ kv ∈ out, ∃ rec v, (kv.1, rec) ∈ cs ∧ rec.value = some v ∧
        kv.2 = { rec with value := some (flattenValue v) }) := by
  refine ⟨sanitizeCollections cs, ?_, ?_, ?_, ?_⟩
  · rw [sanitizeRecordMap, hb, hc]
    rfl
  · rintro ⟨k', rec'⟩ hkv hvnone
    rw [objGet_eq_none_iff]
    intro hkey
    obtain ⟨w, hget⟩ := objGet_isSome_of_mem hkey
    rcases mem_foldl_sanitizeCollectionStep (mem_of_objGet_eq_some hget) with
      h | ⟨k0, rec0, v0, hmem, hv0, heq⟩
    · simp at h
    · have hk : k' = k0 := congrArg Prod.fst heq
      have hrec : rec' = rec0 := nodup_key_unique hnd hkv (hk ▸ hmem)
      rw [← hrec] at hv0
      simp only at hvnone
      rw [hvnone] at hv0
      cases hv0
  · intro k rec v hmem hv
    obtain ⟨A, B, hsplit⟩ := List.append_of_mem hmem
    have hB : ∀ kv ∈ B, kv.1 ≠ k := by
      intro kv hkv heq
      rw [hsplit, objKeys_append] at hnd
      have h := List.nodup_append.mp hnd
      have h2 := h.2.1
      rw [show objKeys ((k, rec) :: B) = k :: objKeys B from rfl,
        List.nodup_cons] at h2
      exact h2.1 (heq ▸ List.mem_map.mpr ⟨kv, hkv, rfl⟩)
    rw [hsplit]
    exact objGet_sanitizeCollections_writer hv hB
  · intro kv hkv
    rcases mem_foldl_sanitizeCollectionStep hkv with h | ⟨k0, rec0, v0, hmem, hv0, heq⟩
    · simp at h
    · exact ⟨rec0, v0, (congrArg Prod.fst heq) ▸ hmem, hv0, congrArg Prod.snd heq⟩

theorem C9_collections_witness :
    ∃ out, (sanitizeRecordMap c9Map).collection = some out ∧
      (∀ kv ∈ [(("c1" : String), (⟨none, none⟩ : BRecord)),
        ("c2", ⟨some "r", some c9Wrapped⟩)], kv.2.value = none → objGet kv.1 out = none) ∧
      (∀ k rec v, (k, rec) ∈ [(("c1" : String), (⟨none, none⟩ : BRecord)),
          ("c2", ⟨some "r", some c9Wrapped⟩)] → rec.value = some v →
        objGet k out = some { rec with value := some (flattenValue v) }) ∧
      (∀ kv ∈ out, ∃ rec v, (kv.1, rec) ∈ [(("c1" : String), (⟨none, none⟩ : BRecord)),
          ("c2", ⟨some "r", some c9Wrapped⟩)] ∧ rec.value = some v ∧
        kv.2 = { rec with value := some (flattenValue v) }) :=
  C9_collections c9Map [] [("c1", ⟨none, none⟩), ("c2", ⟨some "r", some c9Wrapped⟩)]
    rfl rfl (by decide)

end NlineBlog
